import Mathlib

/-!
Shallow embedding of the layered directed-graph layout pipeline
(rank assignment, level construction with virtual nodes, crossing
minimization, coordinate assignment and edge routing) together with
proofs of the correctness properties stated for it.

The JavaScript `Map`/`Set` containers are embedded as association lists
and membership lists that preserve insertion order; object identity of
`LevelNode`s is embedded arena-style: nodes live in a list and are
referenced by their position, so the mutation of a shared node is an
update of the arena entry.  Numbers used for geometry are embedded as
rationals; vertex ranks are integers.
-/

/-- Lookup in an association list (the first binding wins, matching
JavaScript `Map.get` given that `mapSet` updates bindings in place). -/
def alookup {V β : Type} [DecidableEq V] : List (V × β) → V → Option β
  | [], _ => none
  | (k, b) :: rest, v => if v = k then some b else alookup rest v

/-- JavaScript `Map.set`: update the existing binding in place, or append
a new binding at the end (preserving iteration order). -/
def mapSet {V β : Type} [DecidableEq V] : List (V × β) → V → β → List (V × β)
  | [], k, b => [(k, b)]
  | (k', b') :: rest, k, b =>
      if k = k' then (k', b) :: rest else (k', b') :: mapSet rest k b

/-- In-place update of the element at position `i` (no-op out of range). -/
def listModify {α : Type} : List α → Nat → (α → α) → List α
  | [], _, _ => []
  | a :: rest, 0, f => f a :: rest
  | a :: rest, i+1, f => a :: listModify rest i f

theorem alookup_mapSet {V β : Type} [DecidableEq V] (m : List (V × β)) (k : V) (b : β) (v : V) :
    alookup (mapSet m k b) v = if v = k then some b else alookup m v := by
  induction m with
  | nil =>
    by_cases h : v = k <;> simp [mapSet, alookup, h]
  | cons p rest ih =>
    obtain ⟨k', b'⟩ := p
    by_cases hk : k = k'
    · subst hk
      by_cases hv : v = k <;> simp [mapSet, alookup, hv]
    · by_cases hv : v = k'
      · subst hv
        have hvk : ¬ v = k := fun h => hk h.symm
        simp [mapSet, hk, alookup, hvk]
      · simp [mapSet, hk, alookup, hv, ih]

theorem alookup_mem {V β : Type} [DecidableEq V] {m : List (V × β)} {v : V} {b : β}
    (h : alookup m v = some b) : (v, b) ∈ m := by
  induction m with
  | nil => simp [alookup] at h
  | cons p rest ih =>
    obtain ⟨k, b'⟩ := p
    by_cases hv : v = k
    · subst hv
      simp [alookup] at h
      subst h
      exact List.mem_cons_self _ _
    · simp [alookup, hv] at h
      exact List.mem_cons_of_mem _ (ih h)

theorem length_listModify {α : Type} (l : List α) (i : Nat) (f : α → α) :
    (listModify l i f).length = l.length := by
  induction l generalizing i with
  | nil => rfl
  | cons a rest ih =>
    cases i with
    | zero => simp [listModify]
    | succ j => simp [listModify, ih]

theorem getElem?_listModify {α : Type} (l : List α) (i : Nat) (f : α → α) (j : Nat) :
    (listModify l i f)[j]? = if j = i then (l[j]?).map f else l[j]? := by
  induction l generalizing i j with
  | nil => simp [listModify]
  | cons a rest ih =>
    cases i with
    | zero =>
      cases j with
      | zero => simp [listModify]
      | succ j' => simp [listModify]
    | succ i' =>
      cases j with
      | zero => simp [listModify]
      | succ j' => simp [listModify, ih]

/-! ### The generic directed graph container -/

structure Graph (V : Type) where
  vertices : List V
  edges : List (V × V)

/-- The derived index of edges entering `v` that the container maintains:
exactly the inserted edges whose target is `v`, in insertion order. -/
def Graph.getEdgesEntering {V : Type} [DecidableEq V] (g : Graph V) (v : V) : List (V × V) :=
  g.edges.filter (fun e => e.2 = v)

/-- The container invariant guaranteed by `addVertex`/`addEdge`: the vertex
set has no duplicates and every edge endpoint is a member of it. -/
def GraphWF {V : Type} (g : Graph V) : Prop :=
  g.vertices.Nodup ∧ ∀ e ∈ g.edges, e.1 ∈ g.vertices ∧ e.2 ∈ g.vertices

def edgeStep {V : Type} (g : Graph V) (a b : V) : Prop := (a, b) ∈ g.edges

/-- `Reaches g u v`: there is a (possibly empty) directed path from `u` to `v`. -/
def Reaches {V : Type} (g : Graph V) : V → V → Prop := Relation.ReflTransGen (edgeStep g)

/-- Acyclicity: no edge closes a directed cycle. -/
def Acyclic {V : Type} (g : Graph V) : Prop := ∀ e ∈ g.edges, ¬ Reaches g e.2 e.1

/-! ### Rank assignment (`rankVertices`) -/

structure RankState (V : Type) where
  ranks : List (V × Int)
  visited : List V

/-- The memoized depth-first `getRank` of the source.  The `fuel`
parameter bounds the recursion depth; `rankVertices` supplies
`g.vertices.length + 1`, which is proved sufficient below (the visited
set ensures each vertex is expanded at most once, so the recursion
cannot nest deeper than the number of unvisited vertices). -/
def getRank {V : Type} [DecidableEq V] (g : Graph V) : Nat → V → RankState V → Int × RankState V
  | 0, _, s => (-1, s)
  | fuel+1, v, s =>
    if v ∈ s.visited then
      match alookup s.ranks v with
      | some r => (r, s)
      | none => (-1, s)
    else
      let p := (g.getEdgesEntering v).foldl
        (fun (acc : Int × RankState V) e =>
          let q := getRank g fuel e.1 acc.2
          (max q.1 acc.1, q.2))
        (-1, ⟨s.ranks, v :: s.visited⟩)
      (p.1 + 1, ⟨mapSet p.2.ranks v (p.1 + 1), p.2.visited⟩)

def rankVerticesAux {V : Type} [DecidableEq V] (g : Graph V) (fuel : Nat) : List (V × Int) :=
  (g.vertices.foldl (fun s v => (getRank g fuel v s).2) ⟨[], []⟩).ranks

/-- `rankVertices` of the source: run the memoized DFS over every vertex. -/
def rankVertices {V : Type} [DecidableEq V] (g : Graph V) : List (V × Int) :=
  rankVerticesAux g (g.vertices.length + 1)

/-- Number of graph vertices not yet visited (the recursion-depth measure). -/
def unvisCount {V : Type} [DecidableEq V] (g : Graph V) (s : RankState V) : Nat :=
  g.vertices.countP (fun v => !(decide (v ∈ s.visited)))

theorem unvisCount_le {V : Type} [DecidableEq V] (g : Graph V) (s : RankState V) :
    unvisCount g s ≤ g.vertices.length :=
  List.countP_le_length _

theorem unvisCount_mono {V : Type} [DecidableEq V] (g : Graph V)
    {s t : RankState V} (h : ∀ w, w ∈ s.visited → w ∈ t.visited) :
    unvisCount g t ≤ unvisCount g s := by
  refine List.countP_mono_left (fun x _ hx => ?_)
  simp only [Bool.not_eq_true', decide_eq_false_iff_not] at hx ⊢
  exact fun hm => hx (h x hm)

theorem countP_unvis_cons {V : Type} [DecidableEq V] {v : V} {vis : List V} :
    ∀ (l : List V), l.Nodup → v ∈ l → v ∉ vis →
      l.countP (fun x => !(decide (x ∈ v :: vis))) + 1 =
        l.countP (fun x => !(decide (x ∈ vis))) := by
  intro l
  induction l with
  | nil => intro _ hv _; cases hv
  | cons a rest ih =>
    intro hnd hv hnv
    have hhead : a ∉ rest := (List.nodup_cons.mp hnd).1
    have hnd' : rest.Nodup := (List.nodup_cons.mp hnd).2
    rw [List.countP_cons, List.countP_cons]
    rcases List.mem_cons.mp hv with ha | ha
    · have heq : rest.countP (fun x => !(decide (x ∈ v :: vis))) =
          rest.countP (fun x => !(decide (x ∈ vis))) := by
        refine List.countP_congr (fun x hx => ?_)
        have hxv : x ≠ v := fun h => hhead (by rw [← ha]; exact h ▸ hx)
        simp [List.mem_cons, hxv]
      have h1 : (!(decide (a ∈ v :: vis))) = false := by
        have hav : a = v := ha.symm
        simp [List.mem_cons, hav]
      have h2 : (!(decide (a ∈ vis))) = true := by
        have hav : a = v := ha.symm
        simp [hav, hnv]
      rw [heq, h1, h2]
      simp
    · have hrec := ih hnd' ha hnv
      have hav : a ≠ v := fun h => hhead (h ▸ ha)
      have hsame : (!(decide (a ∈ v :: vis))) = (!(decide (a ∈ vis))) := by
        simp [List.mem_cons, hav]
      rw [hsame]
      omega

theorem unvisCount_cons {V : Type} [DecidableEq V] (g : Graph V)
    {v : V} (hnd : g.vertices.Nodup) (hv : v ∈ g.vertices)
    (r : List (V × Int)) (r' : List (V × Int)) (vis : List V) (hnv : v ∉ vis) :
    unvisCount g ⟨r', v :: vis⟩ + 1 = unvisCount g ⟨r, vis⟩ :=
  countP_unvis_cons g.vertices hnd hv hnv

/-- One step of the fold inside `getRank` over the edges entering a vertex. -/
def rankStep {V : Type} [DecidableEq V] (g : Graph V) (n : Nat) :
    (Int × RankState V) → (V × V) → (Int × RankState V) :=
  fun acc e => (max (getRank g n e.1 acc.2).1 acc.1, (getRank g n e.1 acc.2).2)

theorem getRank_zero {V : Type} [DecidableEq V] (g : Graph V) (v : V) (s : RankState V) :
    getRank g 0 v s = (-1, s) := rfl

theorem getRank_visited {V : Type} [DecidableEq V] (g : Graph V) (n : Nat) (v : V)
    (s : RankState V) (h : v ∈ s.visited) :
    getRank g (n+1) v s =
      (match alookup s.ranks v with
       | some r => (r, s)
       | none => (-1, s)) := by
  simp [getRank, h]

theorem getRank_unvisited {V : Type} [DecidableEq V] (g : Graph V) (n : Nat) (v : V)
    (s : RankState V) (h : v ∉ s.visited) :
    getRank g (n+1) v s =
      (((g.getEdgesEntering v).foldl (rankStep g n) (-1, ⟨s.ranks, v :: s.visited⟩)).1 + 1,
       ⟨mapSet ((g.getEdgesEntering v).foldl (rankStep g n)
           (-1, ⟨s.ranks, v :: s.visited⟩)).2.ranks v
          (((g.getEdgesEntering v).foldl (rankStep g n)
           (-1, ⟨s.ranks, v :: s.visited⟩)).1 + 1),
        ((g.getEdgesEntering v).foldl (rankStep g n)
           (-1, ⟨s.ranks, v :: s.visited⟩)).2.visited⟩) := by
  simp [getRank, h, rankStep]
  exact ⟨rfl, rfl, rfl⟩

theorem foldRank_visited_mono {V : Type} [DecidableEq V] (g : Graph V) (n : Nat)
    (ih : ∀ (v : V) (s : RankState V) (w : V),
      w ∈ s.visited → w ∈ (getRank g n v s).2.visited) :
    ∀ (l : List (V × V)) (acc : Int × RankState V) (w : V),
      w ∈ acc.2.visited → w ∈ (l.foldl (rankStep g n) acc).2.visited := by
  intro l
  induction l with
  | nil => intro acc w hw; exact hw
  | cons e rest ihl =>
    intro acc w hw
    rw [List.foldl_cons]
    exact ihl _ w (ih e.1 acc.2 w hw)

theorem getRank_visited_mono {V : Type} [DecidableEq V] (g : Graph V) :
    ∀ (fuel : Nat) (v : V) (s : RankState V) (w : V),
      w ∈ s.visited → w ∈ (getRank g fuel v s).2.visited := by
  intro fuel
  induction fuel with
  | zero => intro v s w hw; exact hw
  | succ n ih =>
    intro v s w hw
    by_cases hv : v ∈ s.visited
    · rw [getRank_visited g n v s hv]
      cases h : alookup s.ranks v <;> simpa using hw
    · rw [getRank_unvisited g n v s hv]
      exact foldRank_visited_mono g n ih _ _ w (List.mem_cons_of_mem _ hw)

theorem foldRank_fuel {V : Type} [DecidableEq V] (g : Graph V) (n : Nat)
    (ih : ∀ (v : V) (s : RankState V), v ∈ g.vertices → unvisCount g s < n →
      getRank g (n+1) v s = getRank g n v s) :
    ∀ (l : List (V × V)) (acc : Int × RankState V),
      (∀ e ∈ l, e.1 ∈ g.vertices) → unvisCount g acc.2 < n →
      l.foldl (rankStep g (n+1)) acc = l.foldl (rankStep g n) acc := by
  intro l
  induction l with
  | nil => intro acc _ _; rfl
  | cons e rest ihl =>
    intro acc hl hcnt
    have he : e.1 ∈ g.vertices := hl e (List.mem_cons_self _ _)
    have hstep : rankStep g (n+1) acc e = rankStep g n acc e := by
      unfold rankStep
      rw [ih e.1 acc.2 he hcnt]
    rw [List.foldl_cons, List.foldl_cons, hstep]
    refine ihl _ (fun x hx => hl x (List.mem_cons_of_mem _ hx)) ?_
    have hmono : ∀ w, w ∈ acc.2.visited → w ∈ (rankStep g n acc e).2.visited :=
      fun w hw => getRank_visited_mono g n e.1 acc.2 w hw
    exact lt_of_le_of_lt (unvisCount_mono g hmono) hcnt

theorem getRank_fuel_succ {V : Type} [DecidableEq V] (g : Graph V) (hWF : GraphWF g) :
    ∀ (fuel : Nat) (v : V) (s : RankState V), v ∈ g.vertices → unvisCount g s < fuel →
      getRank g (fuel+1) v s = getRank g fuel v s := by
  intro fuel
  induction fuel with
  | zero => intro v s _ hcnt; omega
  | succ n ih =>
    intro v s hv hcnt
    obtain ⟨rk, vis⟩ := s
    by_cases hvis : v ∈ (⟨rk, vis⟩ : RankState V).visited
    · rw [getRank_visited g (n+1) v _ hvis, getRank_visited g n v _ hvis]
    · rw [getRank_unvisited g (n+1) v _ hvis, getRank_unvisited g n v _ hvis]
      have hl : ∀ e ∈ g.getEdgesEntering v, e.1 ∈ g.vertices := by
        intro e he
        have hmem : e ∈ g.edges := (List.mem_filter.mp he).1
        exact (hWF.2 e hmem).1
      have hcnt1 : unvisCount g (⟨rk, v :: vis⟩ : RankState V) < n := by
        have := unvisCount_cons g hWF.1 hv rk rk vis hvis
        omega
      rw [foldRank_fuel g n ih (g.getEdgesEntering v) _ hl hcnt1]

theorem getRank_fuel_add {V : Type} [DecidableEq V] (g : Graph V) (hWF : GraphWF g)
    (fuel : Nat) (v : V) (s : RankState V) (hv : v ∈ g.vertices)
    (hcnt : unvisCount g s < fuel) :
    ∀ (k : Nat), getRank g (fuel + k) v s = getRank g fuel v s := by
  intro k
  induction k with
  | zero => rfl
  | succ j ih =>
    have : fuel + (j + 1) = (fuel + j) + 1 := rfl
    rw [this, getRank_fuel_succ g hWF (fuel + j) v s hv (lt_of_lt_of_le hcnt (by omega)), ih]

/-- The fuel `g.vertices.length + 1` used by `rankVertices` is enough: adding
any extra fuel does not change the result.  This is the termination argument
for the memoized DFS, valid for arbitrary (also cyclic) graphs. -/
theorem rankVerticesAux_stable {V : Type} [DecidableEq V] (g : Graph V) (hWF : GraphWF g)
    (k : Nat) : rankVerticesAux g (g.vertices.length + 1 + k) = rankVertices g := by
  unfold rankVerticesAux rankVertices rankVerticesAux
  have main : ∀ (l : List V) (s : RankState V), (∀ x ∈ l, x ∈ g.vertices) →
      l.foldl (fun s v => (getRank g (g.vertices.length + 1 + k) v s).2) s =
      l.foldl (fun s v => (getRank g (g.vertices.length + 1) v s).2) s := by
    intro l
    induction l with
    | nil => intro s _; rfl
    | cons a rest ihl =>
      intro s hl
      have ha : a ∈ g.vertices := hl a (List.mem_cons_self _ _)
      have hcnt : unvisCount g s < g.vertices.length + 1 :=
        lt_of_le_of_lt (unvisCount_le g s) (by omega)
      rw [List.foldl_cons, List.foldl_cons,
        getRank_fuel_add g hWF (g.vertices.length + 1) a s ha hcnt k]
      exact ihl _ (fun x hx => hl x (List.mem_cons_of_mem _ hx))
  rw [main g.vertices ⟨[], []⟩ (fun x hx => hx)]

/-! ### Invariants of the memoized DFS -/

/-- `m'` extends `m`: every binding of `m` is still looked up unchanged. -/
def Extends {V : Type} [DecidableEq V] (m m' : List (V × Int)) : Prop :=
  ∀ v r, alookup m v = some r → alookup m' v = some r

theorem Extends.rfl {V : Type} [DecidableEq V] (m : List (V × Int)) : Extends m m :=
  fun _ _ h => h

theorem Extends.compose {V : Type} [DecidableEq V] {a b c : List (V × Int)}
    (h1 : Extends a b) (h2 : Extends b c) : Extends a c :=
  fun v r h => h2 v r (h1 v r h)

theorem Extends.mapSet_fresh {V : Type} [DecidableEq V] {m : List (V × Int)} {v : V}
    (hnone : alookup m v = none) (b : Int) : Extends m (mapSet m v b) := by
  intro w r hw
  rw [alookup_mapSet]
  have hwv : w ≠ v := by
    intro h; rw [h, hnone] at hw; cases hw
  rw [if_neg hwv]
  exact hw

/-- The left fold of the source: `accum = max(value, accum)` over a list. -/
def foldMax (rs : List Int) (init : Int) : Int := rs.foldl (fun a x => max x a) init

theorem le_foldMax_init (rs : List Int) (init : Int) : init ≤ foldMax rs init := by
  induction rs generalizing init with
  | nil => exact le_refl _
  | cons r rest ih =>
    have : init ≤ max r init := le_max_right _ _
    exact le_trans this (ih (max r init))

theorem mem_le_foldMax {rs : List Int} {x : Int} (hx : x ∈ rs) (init : Int) :
    x ≤ foldMax rs init := by
  induction rs generalizing init with
  | nil => cases hx
  | cons r rest ih =>
    rcases List.mem_cons.mp hx with h | h
    · subst h
      exact le_trans (le_max_left _ _) (le_foldMax_init rest _)
    · exact ih h _

theorem foldMax_mem_or (rs : List Int) (init : Int) :
    foldMax rs init = init ∨ foldMax rs init ∈ rs := by
  induction rs generalizing init with
  | nil => exact Or.inl rfl
  | cons r rest ih =>
    have hstep : foldMax (r :: rest) init = foldMax rest (max r init) := rfl
    rcases ih (max r init) with h | h
    · by_cases hri : r ≤ init
      · left
        rw [hstep, h, max_eq_right hri]
      · right
        rw [hstep, h, max_eq_left (le_of_not_le hri)]
        exact List.mem_cons_self _ _
    · right
      rw [hstep]
      exact List.mem_cons_of_mem _ h

/-- The final recurrence satisfied by the rank map: the assigned rank is one
more than the running maximum of the ranks of the sources of the entering
edges (with initial accumulator `-1`, exactly as in the source). -/
def RecOK {V : Type} [DecidableEq V] (g : Graph V) (m : List (V × Int)) (v : V) (r : Int) : Prop :=
  ∃ rs : List Int,
    List.Forall₂ (fun (e : V × V) ru => alookup m e.1 = some ru) (g.getEdgesEntering v) rs ∧
    r = foldMax rs (-1) + 1

theorem RecOK.monoExt {V : Type} [DecidableEq V] {g : Graph V} {m m' : List (V × Int)}
    (hext : Extends m m') {v : V} {r : Int} (h : RecOK g m v r) : RecOK g m' v r := by
  obtain ⟨rs, hf, hr⟩ := h
  exact ⟨rs, hf.imp (fun a b hx => hext _ _ hx), hr⟩

def InvR {V : Type} [DecidableEq V] (g : Graph V) (s : RankState V) : Prop :=
  (∀ v r, alookup s.ranks v = some r → v ∈ s.visited) ∧
  (∀ v r, alookup s.ranks v = some r → v ∈ g.vertices) ∧
  (∀ v r, alookup s.ranks v = some r → RecOK g s.ranks v r)

/-- No vertex that is visited but not yet finalized can reach `v`:  this is
what rules out the `-1` cycle fallback during an acyclic run. -/
def NoStuck {V : Type} [DecidableEq V] (g : Graph V) (s : RankState V) (v : V) : Prop :=
  ∀ w, w ∈ s.visited → alookup s.ranks w = none → ¬ Reaches g w v

def RankResultOK {V : Type} [DecidableEq V] (g : Graph V) (s : RankState V) (v : V)
    (out : Int × RankState V) : Prop :=
  InvR g out.2 ∧ Extends s.ranks out.2.ranks ∧
  (∀ w, w ∈ s.visited → w ∈ out.2.visited) ∧
  (∀ w, (w ∈ out.2.visited ∧ alookup out.2.ranks w = none) ↔
        (w ∈ s.visited ∧ alookup s.ranks w = none)) ∧
  alookup out.2.ranks v = some out.1

def FoldOK {V : Type} [DecidableEq V] (g : Graph V) (UV0 : V → Prop) (l : List (V × V))
    (m0 : Int) (t : RankState V) (res : Int × RankState V) : Prop :=
  InvR g res.2 ∧ Extends t.ranks res.2.ranks ∧
  (∀ w, w ∈ t.visited → w ∈ res.2.visited) ∧
  (∀ w, (w ∈ res.2.visited ∧ alookup res.2.ranks w = none) ↔ UV0 w) ∧
  (∃ rs, List.Forall₂ (fun (e : V × V) ru => alookup res.2.ranks e.1 = some ru) l rs ∧
    res.1 = foldMax rs m0)

theorem foldRank_spec {V : Type} [DecidableEq V] (g : Graph V) (n : Nat)
    (ih : ∀ (v : V) (s : RankState V), v ∈ g.vertices → unvisCount g s < n → InvR g s →
      NoStuck g s v → RankResultOK g s v (getRank g n v s))
    (UV0 : V → Prop) :
    ∀ (l : List (V × V)) (m0 : Int) (t : RankState V),
      (∀ e ∈ l, e.1 ∈ g.vertices) →
      (∀ e ∈ l, ∀ w, UV0 w → ¬ Reaches g w e.1) →
      unvisCount g t < n → InvR g t →
      (∀ w, (w ∈ t.visited ∧ alookup t.ranks w = none) ↔ UV0 w) →
      FoldOK g UV0 l m0 t (l.foldl (rankStep g n) (m0, t)) := by
  intro l
  induction l with
  | nil =>
    intro m0 t _ _ _ hInv hUV
    exact ⟨hInv, Extends.rfl _, fun w h => h, hUV, ⟨[], List.Forall₂.nil, rfl⟩⟩
  | cons e rest ihl =>
    intro m0 t hl hstuck hcnt hInv hUV
    have he1 : e.1 ∈ g.vertices := hl e (List.mem_cons_self _ _)
    have hns : NoStuck g t e.1 :=
      fun w hwv hwr => hstuck e (List.mem_cons_self _ _) w ((hUV w).mp ⟨hwv, hwr⟩)
    have hq := ih e.1 t he1 hcnt hInv hns
    obtain ⟨hqInv, hqExt, hqVis, hqUV, hqLook⟩ := hq
    have hcnt' : unvisCount g (getRank g n e.1 t).2 < n :=
      lt_of_le_of_lt (unvisCount_mono g hqVis) hcnt
    have hUV' : ∀ w, (w ∈ (getRank g n e.1 t).2.visited ∧
        alookup (getRank g n e.1 t).2.ranks w = none) ↔ UV0 w :=
      fun w => (hqUV w).trans (hUV w)
    have hrec := ihl (max (getRank g n e.1 t).1 m0) (getRank g n e.1 t).2
      (fun x hx => hl x (List.mem_cons_of_mem _ hx))
      (fun x hx => hstuck x (List.mem_cons_of_mem _ hx))
      hcnt' hqInv hUV'
    obtain ⟨hrInv, hrExt, hrVis, hrUV, rs', hf', hm'⟩ := hrec
    rw [List.foldl_cons]
    refine ⟨hrInv, hqExt.compose hrExt, fun w hw => hrVis w (hqVis w hw), hrUV,
      ⟨(getRank g n e.1 t).1 :: rs', List.Forall₂.cons (hrExt _ _ hqLook) hf', hm'⟩⟩

theorem getRank_spec {V : Type} [DecidableEq V] (g : Graph V)
    (hA : Acyclic g) (hWF : GraphWF g) :
    ∀ (fuel : Nat) (v : V) (s : RankState V), v ∈ g.vertices → unvisCount g s < fuel →
      InvR g s → NoStuck g s v → RankResultOK g s v (getRank g fuel v s) := by
  intro fuel
  induction fuel with
  | zero => intro v s _ hcnt; omega
  | succ n ih =>
    intro v s hv hcnt hInv hns
    obtain ⟨rk, vis⟩ := s
    by_cases hvis : v ∈ (⟨rk, vis⟩ : RankState V).visited
    · have hranked : ∃ r, alookup rk v = some r := by
        cases h : alookup rk v with
        | some r => exact ⟨r, rfl⟩
        | none => exact absurd Relation.ReflTransGen.refl (hns v hvis h)
      obtain ⟨r, hr⟩ := hranked
      rw [getRank_visited g n v _ hvis, hr]
      exact ⟨hInv, Extends.rfl _, fun w h => h, fun w => Iff.rfl, hr⟩
    · rw [getRank_unvisited g n v _ hvis]
      have hvnone : alookup rk v = none := by
        cases h : alookup rk v with
        | none => rfl
        | some r => exact absurd (hInv.1 v r h) hvis
      have hlmem : ∀ e ∈ g.getEdgesEntering v, e ∈ g.edges ∧ e.2 = v := by
        intro e he
        refine ⟨(List.mem_filter.mp he).1, ?_⟩
        have h2 := (List.mem_filter.mp he).2
        simpa using h2
      have hl : ∀ e ∈ g.getEdgesEntering v, e.1 ∈ g.vertices :=
        fun e he => (hWF.2 e (hlmem e he).1).1
      have hstuck : ∀ e ∈ g.getEdgesEntering v, ∀ w,
          (w = v ∨ (w ∈ vis ∧ alookup rk w = none)) → ¬ Reaches g w e.1 := by
        intro e he w hw hreach
        obtain ⟨hmem, htgt⟩ := hlmem e he
        have hedge : edgeStep g e.1 v := by
          unfold edgeStep
          obtain ⟨a, b⟩ := e
          simp only at htgt
          subst htgt
          exact hmem
        rcases hw with hwv | hwuv
        · subst hwv
          have hacy := hA e hmem
          rw [htgt] at hacy
          exact hacy hreach
        · exact hns w hwuv.1 hwuv.2 (Relation.ReflTransGen.tail hreach hedge)
      have hUV : ∀ w, (w ∈ (⟨rk, v :: vis⟩ : RankState V).visited ∧
          alookup (⟨rk, v :: vis⟩ : RankState V).ranks w = none) ↔
          (w = v ∨ (w ∈ vis ∧ alookup rk w = none)) := by
        intro w
        constructor
        · rintro ⟨hwv, hwr⟩
          rcases List.mem_cons.mp hwv with h | h
          · exact Or.inl h
          · exact Or.inr ⟨h, hwr⟩
        · rintro (h | h)
          · subst h; exact ⟨List.mem_cons_self _ _, hvnone⟩
          · exact ⟨List.mem_cons_of_mem _ h.1, h.2⟩
      have hInv1 : InvR g (⟨rk, v :: vis⟩ : RankState V) :=
        ⟨fun w r h => List.mem_cons_of_mem _ (hInv.1 w r h), hInv.2.1, hInv.2.2⟩
      have hcnt1 : unvisCount g (⟨rk, v :: vis⟩ : RankState V) < n := by
        have := unvisCount_cons g hWF.1 hv rk rk vis hvis
        omega
      have hfold := foldRank_spec g n ih
        (fun w => w = v ∨ (w ∈ vis ∧ alookup rk w = none))
        (g.getEdgesEntering v) (-1) ⟨rk, v :: vis⟩ hl hstuck hcnt1 hInv1 hUV
      obtain ⟨hpInv, hpExt, hpVis, hpUV, rs, hfor, hmax⟩ := hfold
      have hvUV : v ∈ ((g.getEdgesEntering v).foldl (rankStep g n) (-1, ⟨rk, v :: vis⟩)).2.visited ∧
          alookup ((g.getEdgesEntering v).foldl (rankStep g n) (-1, ⟨rk, v :: vis⟩)).2.ranks v = none :=
        (hpUV v).mpr (Or.inl rfl)
      have hext2 : Extends ((g.getEdgesEntering v).foldl (rankStep g n) (-1, ⟨rk, v :: vis⟩)).2.ranks
          (mapSet ((g.getEdgesEntering v).foldl (rankStep g n) (-1, ⟨rk, v :: vis⟩)).2.ranks v
            (((g.getEdgesEntering v).foldl (rankStep g n) (-1, ⟨rk, v :: vis⟩)).1 + 1)) :=
        Extends.mapSet_fresh hvUV.2 _
      refine ⟨⟨?_, ?_, ?_⟩, ?_, ?_, ?_, ?_⟩
      · intro w r h
        rw [alookup_mapSet] at h
        by_cases hwv : w = v
        · subst hwv; exact hvUV.1
        · rw [if_neg hwv] at h
          exact hpInv.1 w r h
      · intro w r h
        rw [alookup_mapSet] at h
        by_cases hwv : w = v
        · subst hwv; exact hv
        · rw [if_neg hwv] at h
          exact hpInv.2.1 w r h
      · intro w r h
        rw [alookup_mapSet] at h
        by_cases hwv : w = v
        · subst hwv
          rw [if_pos rfl] at h
          refine ⟨rs, hfor.imp (fun a b hx => hext2 _ _ hx), ?_⟩
          cases h
          rw [hmax]
        · rw [if_neg hwv] at h
          exact (hpInv.2.2 w r h).monoExt hext2
      · exact (hpExt.compose hext2 :)
      · intro w hw
        exact hpVis w (List.mem_cons_of_mem _ hw)
      · intro w
        constructor
        · rintro ⟨hwvis, hwnone⟩
          rw [alookup_mapSet] at hwnone
          by_cases hwv : w = v
          · rw [if_pos hwv] at hwnone; cases hwnone
          · rw [if_neg hwv] at hwnone
            rcases (hpUV w).mp ⟨hwvis, hwnone⟩ with h | h
            · exact absurd h hwv
            · exact h
        · rintro ⟨hwvis, hwnone⟩
          have hwv : w ≠ v := fun h => hvis (h ▸ hwvis)
          have := (hpUV w).mpr (Or.inr ⟨hwvis, hwnone⟩)
          refine ⟨this.1, ?_⟩
          rw [alookup_mapSet, if_neg hwv]
          exact this.2
      · rw [alookup_mapSet, if_pos rfl]

theorem forall₂_mem_left {α β : Type} {R : α → β → Prop} :
    ∀ {l : List α} {rs : List β}, List.Forall₂ R l rs → ∀ a ∈ l, ∃ b ∈ rs, R a b := by
  intro l rs h
  induction h with
  | nil => intro a ha; cases ha
  | cons hab htail ih =>
    intro x hx
    rcases List.mem_cons.mp hx with h | h
    · subst h
      exact ⟨_, List.mem_cons_self _ _, hab⟩
    · obtain ⟨b, hb, hRb⟩ := ih x h
      exact ⟨b, List.mem_cons_of_mem _ hb, hRb⟩

theorem forall₂_mem_right {α β : Type} {R : α → β → Prop} :
    ∀ {l : List α} {rs : List β}, List.Forall₂ R l rs → ∀ b ∈ rs, ∃ a ∈ l, R a b := by
  intro l rs h
  induction h with
  | nil => intro b hb; cases hb
  | cons hab htail ih =>
    intro x hx
    rcases List.mem_cons.mp hx with h | h
    · subst h
      exact ⟨_, List.mem_cons_self _ _, hab⟩
    · obtain ⟨a, ha, hRa⟩ := ih x h
      exact ⟨a, List.mem_cons_of_mem _ ha, hRa⟩

theorem rankFold_spec {V : Type} [DecidableEq V] (g : Graph V)
    (hA : Acyclic g) (hWF : GraphWF g) (fuel : Nat) (hfuel : g.vertices.length < fuel) :
    ∀ (l : List V) (s : RankState V), (∀ x ∈ l, x ∈ g.vertices) → InvR g s →
      (∀ w, w ∈ s.visited → alookup s.ranks w ≠ none) →
      InvR g (l.foldl (fun t v => (getRank g fuel v t).2) s) ∧
      (∀ w, w ∈ (l.foldl (fun t v => (getRank g fuel v t).2) s).visited →
        alookup (l.foldl (fun t v => (getRank g fuel v t).2) s).ranks w ≠ none) ∧
      Extends s.ranks (l.foldl (fun t v => (getRank g fuel v t).2) s).ranks ∧
      (∀ v ∈ l, ∃ r, alookup (l.foldl (fun t v => (getRank g fuel v t).2) s).ranks v = some r) := by
  intro l
  induction l with
  | nil =>
    intro s _ hInv hUVe
    exact ⟨hInv, hUVe, Extends.rfl _, fun v hv => absurd hv (List.not_mem_nil v)⟩
  | cons a rest ih =>
    intro s hl hInv hUVe
    have ha : a ∈ g.vertices := hl a (List.mem_cons_self _ _)
    have hcnt : unvisCount g s < fuel := lt_of_le_of_lt (unvisCount_le g s) hfuel
    have hns : NoStuck g s a := fun w hwv hwr => absurd hwr (hUVe w hwv)
    have hq := getRank_spec g hA hWF fuel a s ha hcnt hInv hns
    obtain ⟨hqInv, hqExt, hqVis, hqUV, hqLook⟩ := hq
    have hUVe' : ∀ w, w ∈ (getRank g fuel a s).2.visited →
        alookup (getRank g fuel a s).2.ranks w ≠ none := by
      intro w hw hnone
      exact hUVe w ((hqUV w).mp ⟨hw, hnone⟩).1 ((hqUV w).mp ⟨hw, hnone⟩).2
    have hrec := ih (getRank g fuel a s).2
      (fun x hx => hl x (List.mem_cons_of_mem _ hx)) hqInv hUVe'
    obtain ⟨hrInv, hrUVe, hrExt, hrMem⟩ := hrec
    rw [List.foldl_cons]
    refine ⟨hrInv, hrUVe, hqExt.compose hrExt, ?_⟩
    intro v hv
    rcases List.mem_cons.mp hv with h | h
    · subst h
      exact ⟨(getRank g fuel v s).1, hrExt _ _ hqLook⟩
    · exact hrMem v h

/-- After `rankVertices`, every graph vertex has a rank, every ranked vertex
is a graph vertex, and the produced map satisfies the `max`-of-parents
recurrence of the source (acyclic graphs). -/
theorem rankVertices_spec {V : Type} [DecidableEq V] (g : Graph V)
    (hA : Acyclic g) (hWF : GraphWF g) :
    (∀ v r, alookup (rankVertices g) v = some r →
      RecOK g (rankVertices g) v r ∧ v ∈ g.vertices) ∧
    (∀ v ∈ g.vertices, ∃ r, alookup (rankVertices g) v = some r) := by
  have h0Inv : InvR g (⟨[], []⟩ : RankState V) := by
    refine ⟨?_, ?_, ?_⟩ <;> intro v r h <;> simp [alookup] at h
  have h0UVe : ∀ w, w ∈ (⟨[], []⟩ : RankState V).visited →
      alookup (⟨[], []⟩ : RankState V).ranks w ≠ none := by
    intro w hw; cases hw
  have hmain := rankFold_spec g hA hWF (g.vertices.length + 1) (by omega)
    g.vertices ⟨[], []⟩ (fun x hx => hx) h0Inv h0UVe
  obtain ⟨hInv, _, _, hMem⟩ := hmain
  constructor
  · intro v r h
    exact ⟨hInv.2.2 v r h, hInv.2.1 v r h⟩
  · exact hMem

theorem RecOK.nonneg {V : Type} [DecidableEq V] {g : Graph V} {m : List (V × Int)}
    {v : V} {r : Int} (h : RecOK g m v r) : 0 ≤ r := by
  obtain ⟨rs, _, hr⟩ := h
  have := le_foldMax_init rs (-1)
  omega

/-! ### Directed paths (for the longest-path characterisation of ranks) -/

/-- `DPath g v n`: some directed path with `n` edges ends at `v`. -/
inductive DPath {V : Type} (g : Graph V) : V → Nat → Prop where
  | nil : ∀ v, v ∈ g.vertices → DPath g v 0
  | cons : ∀ u v n, (u, v) ∈ g.edges → DPath g u n → DPath g v (n+1)

/-- `SPath g v n`: some directed path with `n` edges that starts at a source
(a vertex with no entering edges) ends at `v`. -/
inductive SPath {V : Type} [DecidableEq V] (g : Graph V) : V → Nat → Prop where
  | nil : ∀ v, v ∈ g.vertices → g.getEdgesEntering v = [] → SPath g v 0
  | cons : ∀ u v n, (u, v) ∈ g.edges → SPath g u n → SPath g v (n+1)

theorem dpath_le_rank {V : Type} [DecidableEq V] (g : Graph V)
    (hrec : ∀ v r, alookup (rankVertices g) v = some r → RecOK g (rankVertices g) v r) :
    ∀ (v : V) (n : Nat), DPath g v n → ∀ r, alookup (rankVertices g) v = some r →
      (n : Int) ≤ r := by
  intro v n hp
  induction hp with
  | nil w hw =>
    intro r hr
    have := RecOK.nonneg (hrec w r hr)
    omega
  | cons u w n hedge hpu ih =>
    intro r hr
    obtain ⟨rs, hf, hrw⟩ := hrec w r hr
    have hmem : (u, w) ∈ g.getEdgesEntering w := by
      unfold Graph.getEdgesEntering
      rw [List.mem_filter]
      exact ⟨hedge, by simp⟩
    obtain ⟨ru, hru_mem, hru⟩ := forall₂_mem_left hf (u, w) hmem
    have hle := ih ru hru
    have hmax := mem_le_foldMax hru_mem (-1 : Int)
    omega

theorem spath_of_rank {V : Type} [DecidableEq V] (g : Graph V)
    (hrec : ∀ v r, alookup (rankVertices g) v = some r →
      RecOK g (rankVertices g) v r ∧ v ∈ g.vertices) :
    ∀ (k : Nat) (v : V) (r : Int), alookup (rankVertices g) v = some r → r = (k : Int) →
      SPath g v k := by
  intro k
  induction k using Nat.strong_induction_on with
  | _ k ih =>
    intro v r hr hk
    obtain ⟨⟨rs, hf, hrecv⟩, hvert⟩ := hrec v r hr
    by_cases hl : g.getEdgesEntering v = []
    · rw [hl] at hf
      cases hf
      have : r = 0 := by rw [hrecv]; rfl
      have hk0 : k = 0 := by omega
      subst hk0
      exact SPath.nil v hvert hl
    · have hrs_nonneg : ∀ x ∈ rs, 0 ≤ x := by
        intro x hx
        obtain ⟨e, _, he⟩ := forall₂_mem_right hf x hx
        exact ((hrec e.1 x he).1).nonneg
      have hrs_ne : rs ≠ [] := by
        intro h
        subst h
        exact hl (List.forall₂_nil_right_iff.mp hf)
      have hmax_mem : foldMax rs (-1) ∈ rs := by
        rcases foldMax_mem_or rs (-1) with h | h
        · obtain ⟨x, hx⟩ := List.exists_mem_of_ne_nil rs hrs_ne
          have h1 := hrs_nonneg x hx
          have h2 := mem_le_foldMax hx (-1 : Int)
          omega
        · exact h
      obtain ⟨e, hel, he⟩ := forall₂_mem_right hf (foldMax rs (-1)) hmax_mem
      have hmemedge : e ∈ g.edges ∧ e.2 = v := by
        have h1 := (List.mem_filter.mp hel).1
        have h2 := (List.mem_filter.mp hel).2
        exact ⟨h1, by simpa using h2⟩
      have hmaxnn : 0 ≤ foldMax rs (-1) := hrs_nonneg _ hmax_mem
      have hk1 : 1 ≤ k := by omega
      have hcast : foldMax rs (-1) = ((k - 1 : Nat) : Int) := by omega
      have hspu : SPath g e.1 (k - 1) := ih (k - 1) (by omega) e.1 (foldMax rs (-1)) he hcast
      have hedge : (e.1, v) ∈ g.edges := by
        obtain ⟨a, b⟩ := e
        have hb : b = v := hmemedge.2
        subst hb
        exact hmemedge.1
      have := SPath.cons e.1 v (k - 1) hedge hspu
      have hkk : k - 1 + 1 = k := by omega
      rwa [hkk] at this

theorem acyclic_of_numbering {V : Type} (g : Graph V) (f : V → Int)
    (hf : ∀ e ∈ g.edges, f e.1 < f e.2) : Acyclic g := by
  have hmono : ∀ a b, Reaches g a b → f a ≤ f b := by
    intro a b h
    induction h with
    | refl => exact le_refl _
    | tail hab hbc ih =>
      rename_i b' c'
      exact le_trans ih (le_of_lt (hf (b', c') hbc))
  intro e he hr
  exact absurd (hmono _ _ hr) (not_le.mpr (hf e he))

/-- C2: on an acyclic well-formed graph, `rankVertices` ranks every vertex;
a vertex with no entering edges gets rank `0`; every vertex's rank is one
plus the running maximum of the ranks of the sources of its entering edges;
and the rank is exactly the length of the longest path reaching the vertex:
no path ending there is longer, and a path of exactly that length starting
at a source (a vertex with no entering edges) exists. -/
theorem claim2_rankVertices_longest_path {V : Type} [DecidableEq V] (g : Graph V)
    (hWF : GraphWF g) (hA : Acyclic g) :
    ∀ v ∈ g.vertices, ∃ r : Int,
      alookup (rankVertices g) v = some r ∧ 0 ≤ r ∧
      (g.getEdgesEntering v = [] → r = 0) ∧
      (∃ rs : List Int,
        List.Forall₂ (fun (e : V × V) ru => alookup (rankVertices g) e.1 = some ru)
          (g.getEdgesEntering v) rs ∧ r = foldMax rs (-1) + 1) ∧
      (∀ n : Nat, DPath g v n → (n : Int) ≤ r) ∧
      SPath g v r.toNat := by
  intro v hv
  obtain ⟨r, hr⟩ := (rankVertices_spec g hA hWF).2 v hv
  obtain ⟨hrec, _⟩ := (rankVertices_spec g hA hWF).1 v r hr
  have hnn : 0 ≤ r := hrec.nonneg
  refine ⟨r, hr, hnn, ?_, hrec, ?_, ?_⟩
  · intro hl
    obtain ⟨rs, hf, hrecv⟩ := hrec
    rw [hl] at hf
    cases hf
    rw [hrecv]
    rfl
  · intro n hp
    exact dpath_le_rank g (fun v r h => ((rankVertices_spec g hA hWF).1 v r h).1) v n hp r hr
  · refine spath_of_rank g (fun v r h => (rankVertices_spec g hA hWF).1 v r h) r.toNat v r hr ?_
    omega

/-- Concrete two-vertex graph with one edge, used to witness the
hypothesis-bearing claims. -/
def gWit : Graph Nat := ⟨[0, 1], [(0, 1)]⟩

theorem gWit_wf : GraphWF gWit := by
  constructor
  · decide
  · decide

theorem gWit_acyclic : Acyclic gWit :=
  acyclic_of_numbering gWit (fun n => (n : Int)) (by decide)

theorem claim2_rankVertices_longest_path_witness :
    ∃ r : Int,
      alookup (rankVertices gWit) 1 = some r ∧ 0 ≤ r ∧
      (gWit.getEdgesEntering 1 = [] → r = 0) ∧
      (∃ rs : List Int,
        List.Forall₂ (fun (e : Nat × Nat) ru => alookup (rankVertices gWit) e.1 = some ru)
          (gWit.getEdgesEntering 1) rs ∧ r = foldMax rs (-1) + 1) ∧
      (∀ n : Nat, DPath gWit 1 n → (n : Int) ≤ r) ∧
      SPath gWit 1 r.toNat :=
  claim2_rankVertices_longest_path gWit gWit_wf gWit_acyclic 1 (by decide)

/-- C3: on an acyclic well-formed graph the rank map is strictly increasing
along every edge: `rank u + 1 ≤ rank v` for every edge `u → v`. -/
theorem claim3_rank_strictly_increases {V : Type} [DecidableEq V] (g : Graph V)
    (hWF : GraphWF g) (hA : Acyclic g) :
    ∀ e ∈ g.edges, ∃ ru rv : Int,
      alookup (rankVertices g) e.1 = some ru ∧
      alookup (rankVertices g) e.2 = some rv ∧
      ru + 1 ≤ rv := by
  intro e he
  have hv2 : e.2 ∈ g.vertices := (hWF.2 e he).2
  obtain ⟨rv, hrv⟩ := (rankVertices_spec g hA hWF).2 e.2 hv2
  obtain ⟨⟨rs, hf, hrec⟩, _⟩ := (rankVertices_spec g hA hWF).1 e.2 rv hrv
  have hmem : e ∈ g.getEdgesEntering e.2 := by
    unfold Graph.getEdgesEntering
    rw [List.mem_filter]
    exact ⟨he, by simp⟩
  obtain ⟨ru, hru_mem, hru⟩ := forall₂_mem_left hf e hmem
  refine ⟨ru, rv, hru, hrv, ?_⟩
  have := mem_le_foldMax hru_mem (-1 : Int)
  omega

theorem claim3_rank_strictly_increases_witness :
    ∃ ru rv : Int,
      alookup (rankVertices gWit) (0, 1).1 = some ru ∧
      alookup (rankVertices gWit) (0, 1).2 = some rv ∧
      ru + 1 ≤ rv :=
  claim3_rank_strictly_increases gWit gWit_wf gWit_acyclic (0, 1) (by decide)

/-! ### Level construction (`ranksToLevels`)

`LevelNode`s are mutable shared objects in the source; they are embedded
arena-style: the arena is a list of node records, a node is referenced by
its position in the arena, and mutating a node is updating its arena entry.
-/

structure LNode (V : Type) where
  parents : List Nat
  children : List Nat
  vertex : Option V
  index : Nat

structure BuildState (V : Type) where
  nodes : List (LNode V)
  rankToLevel : Int → List Nat
  vertexToLevelNode : List (V × Nat)

/-- The fatal errors of the pipeline, one constructor per `throw` site. -/
inductive LayoutError (V : Type) where
  | missingLevelNodeOrSelfCycle
  | vertexWithNoRank
  | sidewaysEdge (u v : V)
  | missingLevelNode
  | missingPosition
deriving DecidableEq

/-- First loop of `ranksToLevels`: one real `LevelNode` per entry of the
rank map, appended to the row of its rank, in rank-map iteration order. -/
def placeVertices {V : Type} [DecidableEq V] (ranks : List (V × Int)) : BuildState V :=
  ranks.foldl
    (fun st p =>
      { nodes := st.nodes ++ [⟨[], [], some p.1, 0⟩],
        rankToLevel := fun r' =>
          if r' = p.2 then st.rankToLevel r' ++ [st.nodes.length] else st.rankToLevel r',
        vertexToLevelNode := mapSet st.vertexToLevelNode p.1 st.nodes.length })
    ⟨[], fun _ => [], []⟩

/-- `minRank` as accumulated by the source (initialised with `0`). -/
def minRankOf {V : Type} (ranks : List (V × Int)) : Int :=
  ranks.foldl (fun m p => min m p.2) 0

/-- `maxRank` as accumulated by the source (initialised with `0`). -/
def maxRankOf {V : Type} (ranks : List (V × Int)) : Int :=
  ranks.foldl (fun m p => max m p.2) 0

/-- The loop of `handleEdge` inserting one virtual node per intermediate
rank: create the node with the current `parent` as its only parent, push it
onto `parent.children`, append it to its row, and make it the new parent. -/
def addVirtuals {V : Type} : Nat → Int → Nat → List Nat → BuildState V →
    List Nat × Nat × BuildState V
  | 0, _, parent, chain, st => (chain, parent, st)
  | k+1, r, parent, chain, st =>
    let id := st.nodes.length
    let st1 : BuildState V := { st with nodes := st.nodes ++ [⟨[parent], [], none, 0⟩] }
    let st2 : BuildState V := { st1 with
      nodes := listModify st1.nodes parent (fun nd => { nd with children := nd.children ++ [id] }) }
    let st3 : BuildState V := { st2 with
      rankToLevel := fun r' => if r' = r then st2.rankToLevel r' ++ [id] else st2.rankToLevel r' }
    addVirtuals k (r+1) id (chain ++ [id]) st3

/-- `handleEdge` of the source.  The `fuel` counts the nesting of the
back-edge recursion; the recursive call swaps the endpoints, after which
the rank strictly increases, so depth `2` always suffices (proved below:
`handleEdgeAux` at fuel `2` equals it at any larger fuel and is `some`). -/
def handleEdgeAux {V : Type} [DecidableEq V] (ranks : List (V × Int)) :
    Nat → V → V → BuildState V → Option (Except (LayoutError V) (List Nat × BuildState V))
  | 0, _, _, _ => none
  | fuel+1, u, v, st =>
    if u = v then
      some (match alookup st.vertexToLevelNode u with
        | some i => .ok ([i], st)
        | none => .error .missingLevelNodeOrSelfCycle)
    else
      match alookup ranks u, alookup ranks v with
      | none, _ => some (.error .vertexWithNoRank)
      | some _, none => some (.error .vertexWithNoRank)
      | some ru, some rv =>
        if rv = ru then some (.error (.sidewaysEdge u v))
        else if rv < ru then
          (handleEdgeAux ranks fuel v u st).map
            (Except.map (fun p => (p.1.reverse, p.2)))
        else
          match alookup st.vertexToLevelNode u, alookup st.vertexToLevelNode v with
          | none, _ => some (.error .missingLevelNode)
          | some _, none => some (.error .missingLevelNode)
          | some fi, some ti =>
            let t := addVirtuals (rv - (ru + 1)).toNat (ru + 1) fi [fi] st
            let stB : BuildState V := { t.2.2 with
              nodes := listModify t.2.2.nodes ti
                (fun nd => { nd with parents := nd.parents ++ [t.2.1] }) }
            let stC : BuildState V := { stB with
              nodes := listModify stB.nodes t.2.1
                (fun nd => { nd with children := nd.children ++ [ti] }) }
            some (.ok (t.1 ++ [ti], stC))

/-- `handleEdge` with its proved-sufficient recursion depth.  The default
value of `getD` is never reached (`handleEdgeAux_isSome` below). -/
def handleEdge {V : Type} [DecidableEq V] (ranks : List (V × Int)) (u v : V)
    (st : BuildState V) : Except (LayoutError V) (List Nat × BuildState V) :=
  (handleEdgeAux ranks 2 u v st).getD (.error .missingLevelNode)

/-- The per-edge loop of `ranksToLevels`: record the chain of every edge,
stopping at the first fatal error. -/
def processEdges {V : Type} [DecidableEq V] (ranks : List (V × Int)) (edges : List (V × V))
    (st : BuildState V) : Except (LayoutError V) (List (List Nat) × BuildState V) :=
  edges.foldl
    (fun acc e => acc.bind (fun p =>
      (handleEdge ranks e.1 e.2 p.2).map (fun q => (p.1 ++ [q.1], q.2))))
    (.ok ([], st))

/-- `reindexLevel` of the source: store each node's position in its row. -/
def reindexLevel {V : Type} (nodes : List (LNode V)) (level : List Nat) : List (LNode V) :=
  level.enum.foldl
    (fun ns p => listModify ns p.2 (fun nd => { nd with index := p.1 }))
    nodes

/-- Rows `minRank .. maxRank` in order (empty ranks give empty rows), each
reindexed as it is appended. -/
def buildLevels {V : Type} (st : BuildState V) (minR maxR : Int) :
    List (LNode V) × List (List Nat) :=
  (List.range (maxR - minR + 1).toNat).foldl
    (fun acc (k : Nat) =>
      let level := st.rankToLevel (minR + (k : Int))
      (reindexLevel acc.1 level, acc.2 ++ [level]))
    (st.nodes, [])

/-! ### Crossing minimization -/

structure CrossState (V : Type) where
  nodes : List (LNode V)
  levels : List (List Nat)

def idxOf {V : Type} (nodes : List (LNode V)) (i : Nat) : ℚ :=
  ((nodes[i]?).map (fun nd => (nd.index : ℚ))).getD 0

/-- Mean column index of a node's parents.  In the source this is
`reduce(+)/length`, which is `NaN` for a node with no parents; the
undefined mean is embedded as `none`. -/
def levelNodeParentWeight {V : Type} (nodes : List (LNode V)) (i : Nat) : Option ℚ :=
  match nodes[i]? with
  | none => none
  | some nd =>
    if nd.parents.isEmpty then none
    else some ((nd.parents.foldl (fun a p => a + idxOf nodes p) 0) / (nd.parents.length : ℚ))

/-- Mean column index of a node's children (`none` when it has none). -/
def levelNodeChildWeight {V : Type} (nodes : List (LNode V)) (i : Nat) : Option ℚ :=
  match nodes[i]? with
  | none => none
  | some nd =>
    if nd.children.isEmpty then none
    else some ((nd.children.foldl (fun a p => a + idxOf nodes p) 0) / (nd.children.length : ℚ))

def refillRow (w : Nat → Option ℚ) : List Nat → List Nat → List Nat
  | [], _ => []
  | i :: rest, sorted =>
    if (w i).isSome then
      match sorted with
      | s :: srest => s :: refillRow w rest srest
      | [] => i :: refillRow w rest []
    else i :: refillRow w rest sorted

/-- Modelled from the spec: the `sortBy` helper of the missing `utils`
module is a stable sort by a numeric key, and nodes whose weight is
undefined (`NaN` in the source: zero parents or zero children) are ignored
by the sort and keep their positions.  The nodes with a defined weight are
stably sorted (insertion sort) and written back into the remaining slots. -/
def sortRowByWeight (w : Nat → Option ℚ) (row : List Nat) : List Nat :=
  refillRow w row
    (List.insertionSort (fun a b => (w a).getD 0 ≤ (w b).getD 0)
      (row.filter (fun i => (w i).isSome)))

/-- Top-to-bottom sweep: sort each row by mean parent index, then reindex. -/
def downSweep {V : Type} (st : CrossState V) : CrossState V :=
  (List.range st.levels.length).foldl
    (fun s i =>
      let sorted := sortRowByWeight (levelNodeParentWeight s.nodes) ((s.levels[i]?).getD [])
      ⟨reindexLevel s.nodes sorted, s.levels.set i sorted⟩)
    st

/-- Bottom-to-top sweep: sort each row by mean child index, then reindex. -/
def upSweep {V : Type} (st : CrossState V) : CrossState V :=
  (List.range st.levels.length).reverse.foldl
    (fun s i =>
      let sorted := sortRowByWeight (levelNodeChildWeight s.nodes) ((s.levels[i]?).getD [])
      ⟨reindexLevel s.nodes sorted, s.levels.set i sorted⟩)
    st

def fullPass {V : Type} (st : CrossState V) : CrossState V := upSweep (downSweep st)

/-- The four crossing-minimization passes of the source. -/
def crossingPasses {V : Type} (st : CrossState V) : CrossState V :=
  (List.range 4).foldl (fun s _ => fullPass s) st

structure LevelResult (V : Type) where
  nodes : List (LNode V)
  levels : List (List Nat)
  edgeToLevelNodes : List (List Nat)

/-- `ranksToLevels` of the source: place the vertices, record a chain per
edge (inserting virtual nodes), build the rows between the minimum and
maximum rank, and run the crossing-minimization passes. -/
def ranksToLevels {V : Type} [DecidableEq V] (ranks : List (V × Int)) (edges : List (V × V)) :
    Except (LayoutError V) (LevelResult V) :=
  (processEdges ranks edges (placeVertices ranks)).map (fun p =>
    let built := buildLevels p.2 (minRankOf ranks) (maxRankOf ranks)
    let final := crossingPasses ⟨built.1, built.2⟩
    ⟨final.nodes, final.levels, p.1⟩)

/-! ### Coordinate assignment (`positionNodes`)

`Vec2` and `Rect` come from the repository's `math` module, which is not
part of the analysed sources.  Modelled from the spec: a rectangle is an
axis-aligned box given by origin and extent, with `left`/`top` the origin
coordinates and `width`/`height` the extent. -/

structure Vec2 where
  x : ℚ
  y : ℚ
deriving DecidableEq

def Vec2.plus (a b : Vec2) : Vec2 := ⟨a.x + b.x, a.y + b.y⟩

def Vec2.times (a : Vec2) (s : ℚ) : Vec2 := ⟨a.x * s, a.y * s⟩

structure Rect where
  origin : Vec2
  size : Vec2
deriving DecidableEq

def Rect.left (r : Rect) : ℚ := r.origin.x
def Rect.top (r : Rect) : ℚ := r.origin.y
def Rect.width (r : Rect) : ℚ := r.size.x
def Rect.height (r : Rect) : ℚ := r.size.y

/-- The geometry constants of `positionNodes`. -/
def boxWidth : ℚ := 230 / 2
def boxHeight : ℚ := 50 / 2
def verticalSpacing : ℚ := 90 / 2
def horizontalSpacing : ℚ := 50 / 2

/-- JavaScript truthiness of `node.vertex` (vertices are objects, hence
truthy; a virtual node stores `null`). -/
def isRealNode {V : Type} (nodes : List (LNode V)) (i : Nat) : Bool :=
  ((nodes[i]?).map (fun nd => nd.vertex.isSome)).getD false

/-- The occupied width of one row: spacing before every node but the
first, a full box width per real node, a spacing-sized placeholder per
virtual node. -/
def levelWidthOf {V : Type} (nodes : List (LNode V)) (row : List Nat) : ℚ :=
  row.foldl
    (fun lw id =>
      let lw' := if 0 < lw then lw + horizontalSpacing else lw
      if isRealNode nodes id = false then lw' + horizontalSpacing else lw' + boxWidth)
    0

def maxCountOf (levels : List (List Nat)) : Nat :=
  levels.foldl (fun m cur => max m cur.length) 0

/-- `totalWidth` of the source: the width a row of `maxCount` real nodes
would occupy. -/
def totalWidthOf (levels : List (List Nat)) : ℚ :=
  (maxCountOf levels : ℚ) * boxWidth + ((maxCountOf levels : ℚ) - 1) * horizontalSpacing

/-- Place one row starting at `x0`: a virtual node gets a zero-size anchor
box centered in its spacing-sized slot, a real node a full-size box. -/
def placeRow {V : Type} (nodes : List (LNode V)) (row : List Nat) (x0 y : ℚ)
    (ps : List (Nat × Rect)) : List (Nat × Rect) × ℚ :=
  row.foldl
    (fun acc id =>
      if isRealNode nodes id = false then
        (mapSet acc.1 id ⟨⟨acc.2 + horizontalSpacing / 2, y + boxHeight / 2⟩, ⟨0, 0⟩⟩,
          acc.2 + horizontalSpacing + horizontalSpacing)
      else
        (mapSet acc.1 id ⟨⟨acc.2, y⟩, ⟨boxWidth, boxHeight⟩⟩,
          acc.2 + boxWidth + horizontalSpacing))
    (ps, x0)

/-- `positionNodes` of the source: rows are laid out top to bottom, each
row horizontally offset by `totalWidth/2 - levelWidth/2`. -/
def positionNodes {V : Type} (nodes : List (LNode V)) (levels : List (List Nat)) :
    List (Nat × Rect) :=
  (levels.foldl
    (fun (acc : List (Nat × Rect) × ℚ) level =>
      ((placeRow nodes level (totalWidthOf levels / 2 - levelWidthOf nodes level / 2)
          acc.2 acc.1).1,
        acc.2 + boxHeight + verticalSpacing))
    ([], 0)).1

/-! ### Edge routing (`makeEdgePaths`)

The source builds an SVG path string; the embedding records the same data
structurally: the initial move-to command and one smooth-curve command
(control point and end point) per chain segment. -/

inductive PathCmd where
  | move (p : Vec2)
  | scurve (ctrl : Vec2) (endp : Vec2)
deriving DecidableEq

/-- Anchor at the horizontal center of the top edge of a rectangle. -/
def topCenter (r : Rect) : Vec2 := ⟨r.left + r.width / 2, r.top⟩

/-- Anchor at the horizontal center of the bottom edge of a rectangle. -/
def bottomCenter (r : Rect) : Vec2 := (topCenter r).plus ⟨0, r.height⟩

def makeEdgePathGo {V : Type} (positions : List (Nat × Rect)) :
    Nat → List Nat → List PathCmd → Except (LayoutError V) (List PathCmd)
  | _, [], acc => .ok acc
  | prev, nxt :: rest, acc =>
    match alookup positions prev, alookup positions nxt with
    | none, _ => .error .missingPosition
    | some _, none => .error .missingPosition
    | some fromRect, some toRect =>
      let fromAnchor := Vec2.mk (fromRect.left + fromRect.width / 2) fromRect.top
      let toAnchor := Vec2.mk (toRect.left + toRect.width / 2) toRect.top
      let fromAnchor' := if fromRect.top < toRect.top
        then fromAnchor.plus ⟨0, fromRect.height⟩ else fromAnchor
      let toAnchor' := if fromRect.top < toRect.top
        then toAnchor else toAnchor.plus ⟨0, toRect.height⟩
      let midpoint := (fromAnchor'.plus toAnchor').times (1/2)
      makeEdgePathGo positions nxt rest (acc ++ [.scurve midpoint toAnchor'])

/-- One edge path: the initial move-to anchor is the bottom-center of the
first chain node's rectangle (the source unconditionally adds the height),
then one smooth segment per consecutive chain pair.  An empty chain makes
the source look up the position of `undefined`, which fails. -/
def makeEdgePath {V : Type} (positions : List (Nat × Rect)) (chain : List Nat) :
    Except (LayoutError V) (List PathCmd) :=
  match chain with
  | [] => .error .missingPosition
  | n0 :: rest =>
    match alookup positions n0 with
    | none => .error .missingPosition
    | some fromRect =>
      makeEdgePathGo positions n0 rest
        [.move ((Vec2.mk (fromRect.left + fromRect.width / 2) fromRect.top).plus
          ⟨0, fromRect.height⟩)]

def makeEdgePaths {V : Type} (chains : List (List Nat))
    (positions : List (Nat × Rect)) : Except (LayoutError V) (List (List PathCmd)) :=
  chains.foldl
    (fun acc c => acc.bind (fun ps => (makeEdgePath positions c).map (fun p => ps ++ [p])))
    (.ok [])

/-- The whole pipeline as composed at module level in the source:
ranks, levels, positions, edge paths. -/
def layoutGraph {V : Type} [DecidableEq V] (g : Graph V) :
    Except (LayoutError V) (LevelResult V × List (Nat × Rect) × List (List PathCmd)) :=
  (ranksToLevels (rankVertices g) g.edges).bind (fun lr =>
    (makeEdgePaths lr.edgeToLevelNodes (positionNodes lr.nodes lr.levels)).map
      (fun paths => (lr, positionNodes lr.nodes lr.levels, paths)))

/-! ### Depth of the back-edge recursion in `handleEdge` -/

theorem handleEdgeAux_one_eq {V : Type} [DecidableEq V] (ranks : List (V × Int))
    (u v : V) (st : BuildState V) (fuel : Nat)
    (h : ∀ ru rv, alookup ranks u = some ru → alookup ranks v = some rv → ¬ rv < ru) :
    handleEdgeAux ranks (fuel+1) u v st = handleEdgeAux ranks 1 u v st := by
  by_cases huv : u = v
  · simp [handleEdgeAux, huv]
  · cases h1 : alookup ranks u with
    | none => simp [handleEdgeAux, huv, h1]
    | some ru =>
      cases h2 : alookup ranks v with
      | none => simp [handleEdgeAux, huv, h1, h2]
      | some rv =>
        by_cases h3 : rv = ru
        · simp [handleEdgeAux, huv, h1, h2, h3]
        · have h4 : ¬ rv < ru := h ru rv h1 h2
          simp [handleEdgeAux, huv, h1, h2, h3, h4]

/-- Unfolding of the back-edge branch: the source recurses once with the
endpoints swapped and reverses the resulting chain in place. -/
theorem handleEdgeAux_back {V : Type} [DecidableEq V] (ranks : List (V × Int))
    (u v : V) (st : BuildState V) (fuel : Nat) {ru rv : Int}
    (huv : ¬ u = v) (h1 : alookup ranks u = some ru) (h2 : alookup ranks v = some rv)
    (h4 : rv < ru) :
    handleEdgeAux ranks (fuel+1) u v st =
      (handleEdgeAux ranks fuel v u st).map
        (Except.map (fun p => (p.1.reverse, p.2))) := by
  have h3 : ¬ rv = ru := by omega
  simp [handleEdgeAux, huv, h1, h2, h3, h4]

/-- The back-edge recursion of `handleEdge` has depth at most one: after the
endpoints are swapped the rank strictly increases, so the recursive call
never recurses again.  Consequently fuel `2` behaves like any larger fuel. -/
theorem handleEdgeAux_two_stable {V : Type} [DecidableEq V] (ranks : List (V × Int))
    (u v : V) (st : BuildState V) (k : Nat) :
    handleEdgeAux ranks (k + 2) u v st = handleEdgeAux ranks 2 u v st := by
  by_cases huv : u = v
  · simp [handleEdgeAux, huv]
  · cases h1 : alookup ranks u with
    | none => simp [handleEdgeAux, huv, h1]
    | some ru =>
      cases h2 : alookup ranks v with
      | none => simp [handleEdgeAux, huv, h1, h2]
      | some rv =>
        by_cases h3 : rv = ru
        · simp [handleEdgeAux, huv, h1, h2, h3]
        · by_cases h4 : rv < ru
          · have hswap : ∀ ru' rv', alookup ranks v = some ru' → alookup ranks u = some rv' →
                ¬ rv' < ru' := by
              intro ru' rv' hu' hv'
              rw [h2] at hu'
              rw [h1] at hv'
              cases hu'
              cases hv'
              omega
            have e1 : k + 2 = (k + 1) + 1 := rfl
            have e2 : 2 = 1 + 1 := rfl
            rw [e1, handleEdgeAux_back ranks u v st (k+1) huv h1 h2 h4,
              e2, handleEdgeAux_back ranks u v st 1 huv h1 h2 h4,
              handleEdgeAux_one_eq ranks v u st k hswap]
          · simp [handleEdgeAux, huv, h1, h2, h3, h4]

theorem handleEdgeAux_one_isSome {V : Type} [DecidableEq V] (ranks : List (V × Int))
    (u v : V) (st : BuildState V)
    (h : ∀ ru rv, alookup ranks u = some ru → alookup ranks v = some rv → ¬ rv < ru) :
    (handleEdgeAux ranks 1 u v st).isSome := by
  by_cases huv : u = v
  · simp [handleEdgeAux, huv]
  · cases h1 : alookup ranks u with
    | none => simp [handleEdgeAux, huv, h1]
    | some ru =>
      cases h2 : alookup ranks v with
      | none => simp [handleEdgeAux, huv, h1, h2]
      | some rv =>
        by_cases h3 : rv = ru
        · simp [handleEdgeAux, huv, h1, h2, h3]
        · have h4 : ¬ rv < ru := h ru rv h1 h2
          cases hfi : alookup st.vertexToLevelNode u with
          | none => simp [handleEdgeAux, huv, h1, h2, h3, h4, hfi]
          | some fi =>
            cases hti : alookup st.vertexToLevelNode v with
            | none => simp [handleEdgeAux, huv, h1, h2, h3, h4, hfi, hti]
            | some ti => simp [handleEdgeAux, huv, h1, h2, h3, h4, hfi, hti]

/-- With fuel `2`, `handleEdgeAux` always produces a value: the recursion
cannot exhaust its depth bound. -/
theorem handleEdgeAux_two_isSome {V : Type} [DecidableEq V] (ranks : List (V × Int))
    (u v : V) (st : BuildState V) :
    (handleEdgeAux ranks 2 u v st).isSome := by
  by_cases huv : u = v
  · simp [handleEdgeAux, huv]
  · cases h1 : alookup ranks u with
    | none => simp [handleEdgeAux, huv, h1]
    | some ru =>
      cases h2 : alookup ranks v with
      | none => simp [handleEdgeAux, huv, h1, h2]
      | some rv =>
        by_cases h3 : rv = ru
        · simp [handleEdgeAux, huv, h1, h2, h3]
        · by_cases h4 : rv < ru
          · have hswap : ∀ ru' rv', alookup ranks v = some ru' → alookup ranks u = some rv' →
                ¬ rv' < ru' := by
              intro ru' rv' hu' hv'
              rw [h2] at hu'
              rw [h1] at hv'
              cases hu'
              cases hv'
              omega
            have hinner := handleEdgeAux_one_isSome ranks v u st hswap
            have e2 : 2 = 1 + 1 := rfl
            rw [e2, handleEdgeAux_back ranks u v st 1 huv h1 h2 h4]
            simpa using hinner
          · cases hfi : alookup st.vertexToLevelNode u with
            | none => simp [handleEdgeAux, huv, h1, h2, h3, h4, hfi]
            | some fi =>
              cases hti : alookup st.vertexToLevelNode v with
              | none => simp [handleEdgeAux, huv, h1, h2, h3, h4, hfi, hti]
              | some ti => simp [handleEdgeAux, huv, h1, h2, h3, h4, hfi, hti]

/-! ### Monotone evolution of the build state -/

/-- Later mutations only append to parent/child lists and to rows, never
change a node's vertex, and never touch the vertex-to-node map. -/
def StateLe {V : Type} (s t : BuildState V) : Prop :=
  (∀ (i : Nat) (nd : LNode V), s.nodes[i]? = some nd → ∃ nd' : LNode V,
    t.nodes[i]? = some nd' ∧
    nd'.vertex = nd.vertex ∧ (∀ x ∈ nd.parents, x ∈ nd'.parents) ∧
    (∀ x ∈ nd.children, x ∈ nd'.children)) ∧
  (∀ r x, x ∈ s.rankToLevel r → x ∈ t.rankToLevel r) ∧
  s.vertexToLevelNode = t.vertexToLevelNode

theorem StateLe.refl {V : Type} (s : BuildState V) : StateLe s s := by
  refine ⟨?_, fun _ _ h => h, rfl⟩
  intro i nd h
  exact ⟨nd, h, rfl, fun _ hx => hx, fun _ hx => hx⟩

theorem StateLe.compLe {V : Type} {a b c : BuildState V}
    (h1 : StateLe a b) (h2 : StateLe b c) : StateLe a c := by
  refine ⟨?_, fun r x hx => h2.2.1 r x (h1.2.1 r x hx), h1.2.2.trans h2.2.2⟩
  intro i nd h
  obtain ⟨nd1, hnd1, hv1, hp1, hc1⟩ := h1.1 i nd h
  obtain ⟨nd2, hnd2, hv2, hp2, hc2⟩ := h2.1 i nd1 hnd1
  exact ⟨nd2, hnd2, hv2.trans hv1, fun x hx => hp2 x (hp1 x hx),
    fun x hx => hc2 x (hc1 x hx)⟩

theorem getElem?_some_lt {α : Type} {l : List α} {i : Nat} {a : α}
    (h : l[i]? = some a) : i < l.length := by
  by_contra hge
  rw [List.getElem?_eq_none (by omega)] at h
  cases h

theorem stateLe_append {V : Type} (st : BuildState V) (nd : LNode V) :
    StateLe st { st with nodes := st.nodes ++ [nd] } := by
  refine ⟨?_, fun r x h => h, rfl⟩
  intro i nd0 h
  refine ⟨nd0, ?_, rfl, fun x hx => hx, fun x hx => hx⟩
  rw [List.getElem?_append_left (getElem?_some_lt h)]
  exact h

theorem stateLe_modifyChildren {V : Type} (st : BuildState V) (j x : Nat) :
    StateLe st { st with nodes :=
      (listModify st.nodes j (fun nd => { nd with children := nd.children ++ [x] })) } := by
  refine ⟨?_, fun r y h => h, rfl⟩
  intro i nd0 h
  show ∃ nd', (listModify st.nodes j _)[i]? = some nd' ∧ _
  rw [getElem?_listModify]
  by_cases hij : i = j
  · rw [if_pos hij, h]
    exact ⟨_, rfl, rfl, fun y hy => hy, fun y hy => List.mem_append_left _ hy⟩
  · rw [if_neg hij]
    exact ⟨nd0, h, rfl, fun y hy => hy, fun y hy => hy⟩

theorem stateLe_modifyParents {V : Type} (st : BuildState V) (j x : Nat) :
    StateLe st { st with nodes :=
      (listModify st.nodes j (fun nd => { nd with parents := nd.parents ++ [x] })) } := by
  refine ⟨?_, fun r y h => h, rfl⟩
  intro i nd0 h
  show ∃ nd', (listModify st.nodes j _)[i]? = some nd' ∧ _
  rw [getElem?_listModify]
  by_cases hij : i = j
  · rw [if_pos hij, h]
    exact ⟨_, rfl, rfl, fun y hy => List.mem_append_left _ hy, fun y hy => hy⟩
  · rw [if_neg hij]
    exact ⟨nd0, h, rfl, fun y hy => hy, fun y hy => hy⟩

theorem stateLe_pushRank {V : Type} (st : BuildState V) (r : Int) (id : Nat) :
    StateLe st { st with rankToLevel := fun r' =>
      if r' = r then st.rankToLevel r' ++ [id] else st.rankToLevel r' } := by
  refine ⟨fun i nd h => ⟨nd, h, rfl, fun y hy => hy, fun y hy => hy⟩, ?_, rfl⟩
  intro r' x h
  show x ∈ (if r' = r then st.rankToLevel r' ++ [id] else st.rankToLevel r')
  by_cases hr : r' = r
  · rw [if_pos hr]
    exact List.mem_append_left _ h
  · rw [if_neg hr]
    exact h

theorem addVirtuals_succ {V : Type} (k : Nat) (r : Int) (parent : Nat) (chain : List Nat)
    (st : BuildState V) :
    addVirtuals (k+1) r parent chain st =
      addVirtuals k (r+1) st.nodes.length (chain ++ [st.nodes.length])
        { nodes :=
            (listModify (st.nodes ++ [⟨[parent], [], none, 0⟩]) parent
              (fun nd => { nd with children := nd.children ++ [st.nodes.length] })),
          rankToLevel := fun r' =>
            if r' = r then st.rankToLevel r' ++ [st.nodes.length] else st.rankToLevel r',
          vertexToLevelNode := st.vertexToLevelNode } := rfl

theorem getElem?_concat_len {α : Type} (l : List α) (a : α) :
    (l ++ [a])[l.length]? = some a := by
  rw [List.getElem?_append_right (le_refl _)]
  simp

theorem addVirtuals_spec {V : Type} :
    ∀ (steps : Nat) (r : Int) (parent : Nat) (chain : List Nat) (st : BuildState V),
      parent < st.nodes.length →
      (addVirtuals steps r parent chain st).1 =
        chain ++ (List.range steps).map (st.nodes.length + ·) ∧
      (addVirtuals steps r parent chain st).2.1 =
        (if steps = 0 then parent else st.nodes.length + (steps - 1)) ∧
      (addVirtuals steps r parent chain st).2.2.nodes.length = st.nodes.length + steps ∧
      StateLe st (addVirtuals steps r parent chain st).2.2 ∧
      (∀ j, j < steps →
        ∃ nd : LNode V,
          (addVirtuals steps r parent chain st).2.2.nodes[st.nodes.length + j]? = some nd ∧
          nd.vertex = none ∧
          (if j = 0 then parent else st.nodes.length + (j-1)) ∈ nd.parents ∧
          (st.nodes.length + j) ∈
            (addVirtuals steps r parent chain st).2.2.rankToLevel (r + (j : Int))) ∧
      (∀ j, j < steps →
        ∃ nd : LNode V,
          (addVirtuals steps r parent chain st).2.2.nodes[
            (if j = 0 then parent else st.nodes.length + (j-1))]? = some nd ∧
          (st.nodes.length + j) ∈ nd.children) := by
  intro steps
  induction steps with
  | zero =>
    intro r parent chain st hpar
    refine ⟨by simp [addVirtuals], by simp [addVirtuals], by simp [addVirtuals],
      ?_, fun j hj => absurd hj (by omega), fun j hj => absurd hj (by omega)⟩
    exact StateLe.refl st
  | succ k ihs =>
    intro r parent chain st hpar
    rw [addVirtuals_succ]
    have hst3nodes :
        (listModify (st.nodes ++ [(⟨[parent], [], none, 0⟩ : LNode V)]) parent
          (fun nd => { nd with children := nd.children ++ [st.nodes.length] })).length =
        st.nodes.length + 1 := by
      rw [length_listModify, List.length_append]
      rfl
    set st3 : BuildState V :=
      { nodes :=
          (listModify (st.nodes ++ [⟨[parent], [], none, 0⟩]) parent
            (fun nd => { nd with children := nd.children ++ [st.nodes.length] })),
        rankToLevel := fun r' =>
          if r' = r then st.rankToLevel r' ++ [st.nodes.length] else st.rankToLevel r',
        vertexToLevelNode := st.vertexToLevelNode } with hst3
    have hlen3 : st3.nodes.length = st.nodes.length + 1 := hst3nodes
    have hparne : ¬ (st.nodes.length = parent) := by omega
    have hNentry : st3.nodes[st.nodes.length]? = some ⟨[parent], [], none, 0⟩ := by
      show (listModify _ parent _)[st.nodes.length]? = _
      rw [getElem?_listModify, if_neg hparne, getElem?_concat_len]
    have hPentry : st3.nodes[parent]? =
        (st.nodes[parent]?).map
          (fun nd => { nd with children := nd.children ++ [st.nodes.length] }) := by
      show (listModify _ parent _)[parent]? = _
      rw [getElem?_listModify, if_pos rfl, List.getElem?_append_left hpar]
    have hle3 : StateLe st st3 := by
      have s1 := stateLe_append st (⟨[parent], [], none, 0⟩ : LNode V)
      have s2 := stateLe_modifyChildren
        ({ st with nodes := st.nodes ++ [⟨[parent], [], none, 0⟩] } : BuildState V)
        parent st.nodes.length
      have s3 := stateLe_pushRank
        ({ st with nodes :=
            (listModify (st.nodes ++ [⟨[parent], [], none, 0⟩]) parent
              (fun nd => { nd with children := nd.children ++ [st.nodes.length] })) } :
          BuildState V) r st.nodes.length
      exact (s1.compLe s2).compLe s3
    have hNlt : st.nodes.length < st3.nodes.length := by omega
    obtain ⟨ih1, ih2, ih3, ih4, ih5, ih6⟩ :=
      ihs (r+1) st.nodes.length (chain ++ [st.nodes.length]) st3 hNlt
    rw [hlen3] at ih1 ih2 ih3 ih5 ih6
    refine ⟨?_, ?_, ?_, hle3.compLe ih4, ?_, ?_⟩
    · rw [ih1, List.range_succ_eq_map, List.map_cons, List.map_map, List.append_assoc]
      have hcong : (List.range k).map ((st.nodes.length + ·) ∘ Nat.succ) =
          (List.range k).map (st.nodes.length + 1 + ·) := by
        refine List.map_congr_left (fun j _ => ?_)
        simp only [Function.comp]
        omega
      rw [hcong]
      rfl
    · rw [ih2, if_neg (Nat.succ_ne_zero k)]
      split <;> omega
    · rw [ih3]
      omega
    · intro j hj
      cases j with
      | zero =>
        obtain ⟨nd', hnd', hv', hp', hc'⟩ := ih4.1 st.nodes.length _ hNentry
        refine ⟨nd', by simpa using hnd', by simpa using hv', ?_, ?_⟩
        · simp only [if_pos rfl]
          exact hp' parent (List.mem_singleton.mpr rfl)
        · have hmem3 : st.nodes.length ∈ st3.rankToLevel r := by
            show st.nodes.length ∈ (if r = r then st.rankToLevel r ++ [st.nodes.length]
              else st.rankToLevel r)
            rw [if_pos rfl]
            exact List.mem_append_right _ (List.mem_singleton.mpr rfl)
          have := ih4.2.1 r st.nodes.length hmem3
          simpa using this
      | succ j' =>
        have hj' : j' < k := by omega
        obtain ⟨nd, hnd, hv, hp, hrtl⟩ := ih5 j' hj'
        have hidx : st.nodes.length + 1 + j' = st.nodes.length + (j' + 1) := by omega
        rw [hidx] at hnd hrtl
        refine ⟨nd, hnd, hv, ?_, ?_⟩
        · have harith : (if j' = 0 then st.nodes.length else st.nodes.length + 1 + (j' - 1)) =
              (if j' + 1 = 0 then parent else st.nodes.length + (j' + 1 - 1)) := by
            split
            · rename_i h0
              subst h0
              simp
            · rename_i h0
              rw [if_neg (by omega)]
              omega
          rw [harith] at hp
          exact hp
        · have harith2 : (r + 1) + (j' : Int) = r + ((j' + 1 : Nat) : Int) := by
            push_cast
            ring
          rw [harith2] at hrtl
          exact hrtl
    · intro j hj
      cases j with
      | zero =>
        have hPentry' : ∃ ndp : LNode V, st3.nodes[parent]? = some ndp ∧
            st.nodes.length ∈ ndp.children := by
          cases hsome : st.nodes[parent]? with
          | none =>
            have := List.getElem?_eq_none_iff.mp hsome
            omega
          | some ndold =>
            refine ⟨_, by rw [hPentry, hsome]; rfl, ?_⟩
            exact List.mem_append_right _ (List.mem_singleton.mpr rfl)
        obtain ⟨ndp, hndp, hmemp⟩ := hPentry'
        obtain ⟨nd', hnd', hv', hp', hc'⟩ := ih4.1 parent _ hndp
        simp only [if_pos rfl]
        exact ⟨nd', hnd', by simpa using hc' _ hmemp⟩
      | succ j' =>
        have hj' : j' < k := by omega
        obtain ⟨nd, hnd, hc⟩ := ih6 j' hj'
        have harith : (if j' = 0 then st.nodes.length else st.nodes.length + 1 + (j' - 1)) =
            (if j' + 1 = 0 then parent else st.nodes.length + (j' + 1 - 1)) := by
          split
          · rename_i h0
            subst h0
            simp
          · rename_i h0
            rw [if_neg (by omega)]
            omega
        rw [harith] at hnd
        have hidx : st.nodes.length + 1 + j' = st.nodes.length + (j' + 1) := by omega
        rw [hidx] at hc
        exact ⟨nd, hnd, hc⟩

/-- The map from vertices to their real `LevelNode`s is consistent with the
arena: every binding points to a node wrapping exactly that vertex. -/
def InvVTL {V : Type} [DecidableEq V] (st : BuildState V) : Prop :=
  ∀ w i, alookup st.vertexToLevelNode w = some i →
    ∃ nd : LNode V, st.nodes[i]? = some nd ∧ nd.vertex = some w

theorem InvVTL.monoLe {V : Type} [DecidableEq V] {s t : BuildState V}
    (hle : StateLe s t) (h : InvVTL s) : InvVTL t := by
  intro w i hw
  rw [← hle.2.2] at hw
  obtain ⟨nd, hnd, hv⟩ := h w i hw
  obtain ⟨nd', hnd', hv', _, _⟩ := hle.1 i nd hnd
  exact ⟨nd', hnd', by rw [hv', hv]⟩

/-- The chain recorded for an edge `u→v` with `rank u = ru ≤ rv = rank v`:
it has `rv - ru + 1` entries, starts at the real node of `u`, ends at the
real node of `v`, all interior entries are virtual nodes placed in the row
of rank `ru + k`, and consecutive entries are linked parent/child. -/
def ChainGood {V : Type} (st : BuildState V) (u v : V) (ru rv : Int) (ch : List Nat) : Prop :=
  ch.length = (rv - ru).toNat + 1 ∧
  (∃ (i : Nat) (nd : LNode V), ch.head? = some i ∧ st.nodes[i]? = some nd ∧
    nd.vertex = some u) ∧
  (∃ (j : Nat) (nd : LNode V), ch.getLast? = some j ∧ st.nodes[j]? = some nd ∧
    nd.vertex = some v) ∧
  (∀ (k nid : Nat), ch[k]? = some nid → 0 < k → k + 1 < ch.length →
    ∃ nd : LNode V, st.nodes[nid]? = some nd ∧ nd.vertex = none ∧
      nid ∈ st.rankToLevel (ru + (k : Int))) ∧
  (∀ (k a b : Nat), ch[k]? = some a → ch[k+1]? = some b →
    (∃ nda : LNode V, st.nodes[a]? = some nda ∧ b ∈ nda.children) ∧
    (∃ ndb : LNode V, st.nodes[b]? = some ndb ∧ a ∈ ndb.parents))

theorem ChainGood.monoSt {V : Type} {s t : BuildState V} {u v : V} {ru rv : Int}
    {ch : List Nat} (hle : StateLe s t) (h : ChainGood s u v ru rv ch) :
    ChainGood t u v ru rv ch := by
  obtain ⟨hlen, ⟨i, nd, hci, hni, hvi⟩, ⟨j, ndj, hcj, hnj, hvj⟩, hint, hlink⟩ := h
  refine ⟨hlen, ?_, ?_, ?_, ?_⟩
  · obtain ⟨nd', hnd', hv', _, _⟩ := hle.1 i nd hni
    exact ⟨i, nd', hci, hnd', by rw [hv', hvi]⟩
  · obtain ⟨nd', hnd', hv', _, _⟩ := hle.1 j ndj hnj
    exact ⟨j, nd', hcj, hnd', by rw [hv', hvj]⟩
  · intro k id hk h0 hk1
    obtain ⟨nd0, hnd0, hv0, hmem0⟩ := hint k id hk h0 hk1
    obtain ⟨nd', hnd', hv', _, _⟩ := hle.1 id nd0 hnd0
    exact ⟨nd', hnd', by rw [hv', hv0], hle.2.1 _ _ hmem0⟩
  · intro k a b hka hkb
    obtain ⟨⟨nda, hnda, hca⟩, ⟨ndb, hndb, hpb⟩⟩ := hlink k a b hka hkb
    obtain ⟨nda', hnda', _, _, hca'⟩ := hle.1 a nda hnda
    obtain ⟨ndb', hndb', _, hpb', _⟩ := hle.1 b ndb hndb
    exact ⟨⟨nda', hnda', hca' _ hca⟩, ⟨ndb', hndb', hpb' _ hpb⟩⟩

theorem handleEdgeAux_forward {V : Type} [DecidableEq V] (ranks : List (V × Int)) (fuel : Nat)
    (u v : V) (st : BuildState V) (ru rv : Int) (fi ti : Nat)
    (huv : ¬ u = v)
    (h1 : alookup ranks u = some ru) (h2 : alookup ranks v = some rv)
    (hlt : ru < rv)
    (hfi : alookup st.vertexToLevelNode u = some fi)
    (hti : alookup st.vertexToLevelNode v = some ti)
    (hvtl : InvVTL st) :
    ∃ (ch : List Nat) (st' : BuildState V),
      handleEdgeAux ranks (fuel+1) u v st = some (.ok (ch, st')) ∧
      StateLe st st' ∧ InvVTL st' ∧ ChainGood st' u v ru rv ch := by
  have h3 : ¬ rv = ru := by omega
  have h4 : ¬ rv < ru := by omega
  obtain ⟨ndfi, hndfi, hvfi⟩ := hvtl u fi hfi
  obtain ⟨ndti, hndti, hvti⟩ := hvtl v ti hti
  have hfilt : fi < st.nodes.length := getElem?_some_lt hndfi
  have htilt : ti < st.nodes.length := getElem?_some_lt hndti
  have hfine : ¬ fi = ti := by
    intro h
    have hsame : ndfi = ndti := by
      rw [h] at hndfi
      rw [hndfi] at hndti
      exact Option.some.inj hndti
    rw [hsame, hvti] at hvfi
    exact huv (Option.some.inj hvfi).symm
  set A := addVirtuals ((rv - (ru + 1)).toNat) (ru + 1) fi [fi] st with hAdef
  obtain ⟨a1, a2, a3, a4, a5, a6⟩ :=
    addVirtuals_spec ((rv - (ru + 1)).toNat) (ru + 1) fi [fi] st hfilt
  set L := (rv - (ru + 1)).toNat with hLdef
  rw [← hAdef] at a1 a2 a3 a4 a5 a6
  set stB : BuildState V := { A.2.2 with nodes :=
    (listModify A.2.2.nodes ti (fun nd => { nd with parents := nd.parents ++ [A.2.1] })) }
    with hBdef
  set stC : BuildState V := { stB with nodes :=
    (listModify stB.nodes A.2.1 (fun nd => { nd with children := nd.children ++ [ti] })) }
    with hCdef
  have hrun : handleEdgeAux ranks (fuel+1) u v st = some (.ok (A.1 ++ [ti], stC)) := by
    simp [handleEdgeAux, huv, h1, h2, h3, h4, hfi, hti, hBdef, hCdef, hAdef]
  have hleB : StateLe A.2.2 stB := stateLe_modifyParents A.2.2 ti A.2.1
  have hleC : StateLe stB stC := stateLe_modifyChildren stB A.2.1 ti
  have hleAC : StateLe A.2.2 stC := hleB.compLe hleC
  have hle : StateLe st stC := (a4.compLe hleB).compLe hleC
  have hLpos : (rv - ru).toNat = L + 1 := by omega
  have hA1 : A.1 = fi :: (List.range L).map (st.nodes.length + ·) := by
    rw [a1]
    rfl
  have hA1len : A.1.length = L + 1 := by
    rw [hA1]
    simp
  have hclen : (A.1 ++ [ti]).length = L + 2 := by
    simp [hA1len]
  have hchainIdx : ∀ k, k ≤ L →
      A.1[k]? = some (if k = 0 then fi else st.nodes.length + (k - 1)) := by
    intro k hk
    cases k with
    | zero =>
      rw [hA1]
      simp
    | succ j =>
      rw [hA1, List.getElem?_cons_succ, List.getElem?_map, List.getElem?_range (by omega)]
      rw [if_neg (Nat.succ_ne_zero j)]
      rfl
  have hP1lt : A.2.1 < A.2.2.nodes.length := by
    rw [a2, a3]
    split <;> omega
  have hP1ne : ¬ A.2.1 = ti := by
    rw [a2]
    split
    · exact hfine
    · rename_i h0
      omega
  obtain ⟨ndti', hndti', hvti', hpti', hcti'⟩ := a4.1 ti ndti hndti
  have hstBti : stB.nodes[ti]? =
      some { ndti' with parents := ndti'.parents ++ [A.2.1] } := by
    show (listModify A.2.2.nodes ti _)[ti]? = _
    rw [getElem?_listModify, if_pos rfl, hndti']
    rfl
  have hstCti : stC.nodes[ti]? =
      some { ndti' with parents := ndti'.parents ++ [A.2.1] } := by
    show (listModify stB.nodes A.2.1 _)[ti]? = _
    rw [getElem?_listModify, if_neg (fun h => hP1ne h.symm), hstBti]
  have hstBP1 : stB.nodes[A.2.1]? = A.2.2.nodes[A.2.1]? := by
    show (listModify A.2.2.nodes ti _)[A.2.1]? = _
    rw [getElem?_listModify, if_neg hP1ne]
  obtain ⟨ndp, hndp⟩ : ∃ ndp : LNode V, A.2.2.nodes[A.2.1]? = some ndp := by
    cases h : A.2.2.nodes[A.2.1]? with
    | none =>
      have := List.getElem?_eq_none_iff.mp h
      omega
    | some ndp => exact ⟨ndp, rfl⟩
  have hstCP1 : stC.nodes[A.2.1]? =
      some { ndp with children := ndp.children ++ [ti] } := by
    show (listModify stB.nodes A.2.1 _)[A.2.1]? = _
    rw [getElem?_listModify, if_pos rfl, hstBP1, hndp]
    rfl
  refine ⟨A.1 ++ [ti], stC, hrun, hle, hvtl.monoLe hle, ?_, ?_, ?_, ?_, ?_⟩
  · rw [hclen, hLpos]
  · obtain ⟨nd', hnd', hv', _, _⟩ := hle.1 fi ndfi hndfi
    refine ⟨fi, nd', ?_, hnd', by rw [hv', hvfi]⟩
    rw [hA1]
    rfl
  · refine ⟨ti, _, List.getLast?_concat _, hstCti, ?_⟩
    show ndti'.vertex = some v
    rw [hvti', hvti]
  · intro k nid hk h0 hk1
    rw [hclen] at hk1
    have hkL : k ≤ L := by omega
    rw [List.getElem?_append_left (by omega), hchainIdx k hkL, if_neg (by omega)] at hk
    cases hk
    obtain ⟨nd, hnd, hv, _, hmem⟩ := a5 (k-1) (by omega)
    obtain ⟨nd', hnd', hv', _, _⟩ := hleAC.1 _ nd hnd
    have hidx : st.nodes.length + (k-1) = st.nodes.length + (k - 1) := rfl
    refine ⟨nd', hnd', by rw [hv', hv], ?_⟩
    have hmem' := hleAC.2.1 _ _ hmem
    have harith : (ru + 1) + ((k-1 : Nat) : Int) = ru + (k : Int) := by omega
    rw [harith] at hmem'
    exact hmem'
  · intro k a b hka hkb
    have hblt : k + 1 < L + 2 := by
      have := getElem?_some_lt hkb
      rw [hclen] at this
      exact this
    by_cases hkcase : k + 1 ≤ L
    · rw [List.getElem?_append_left (by omega), hchainIdx k (by omega)] at hka
      rw [List.getElem?_append_left (by omega), hchainIdx (k+1) (by omega),
        if_neg (Nat.succ_ne_zero k)] at hkb
      cases hka
      cases hkb
      obtain ⟨ndb0, hndb0, hvb0, hpb0, hmemb0⟩ := a5 k (by omega)
      obtain ⟨nda0, hnda0, hca0⟩ := a6 k (by omega)
      obtain ⟨ndb', hndb', _, hpb', _⟩ := hleAC.1 _ ndb0 hndb0
      obtain ⟨nda', hnda', _, _, hca'⟩ := hleAC.1 _ nda0 hnda0
      have hsucc : k + 1 - 1 = k := by omega
      rw [hsucc]
      exact ⟨⟨nda', hnda', hca' _ hca0⟩, ⟨ndb', hndb', hpb' _ hpb0⟩⟩
    · have hkL : k = L := by omega
      subst hkL
      rw [List.getElem?_append_left (by omega), hchainIdx L (le_refl L)] at hka
      have hkb' : (A.1 ++ [ti])[L+1]? = some ti := by
        rw [← hA1len]
        exact List.getElem?_concat_length _ _
      rw [hkb'] at hkb
      cases hkb
      have hka' : a = A.2.1 := by
        rw [a2]
        exact (Option.some.inj hka).symm
      subst hka'
      refine ⟨⟨_, hstCP1, ?_⟩, ⟨_, hstCti, ?_⟩⟩
      · exact List.mem_append_right _ (List.mem_singleton.mpr rfl)
      · exact List.mem_append_right _ (List.mem_singleton.mpr rfl)

theorem handleEdge_eq_of_aux {V : Type} [DecidableEq V] {ranks : List (V × Int)} {u v : V}
    {st : BuildState V} {e : Except (LayoutError V) (List Nat × BuildState V)}
    (h : handleEdgeAux ranks 2 u v st = some e) : handleEdge ranks u v st = e := by
  unfold handleEdge
  rw [h]
  rfl

theorem handleEdge_sideways {V : Type} [DecidableEq V] (ranks : List (V × Int)) (u v : V)
    (st : BuildState V) {ru rv : Int} (huv : ¬ u = v)
    (h1 : alookup ranks u = some ru) (h2 : alookup ranks v = some rv) (heq : rv = ru) :
    handleEdge ranks u v st = .error (.sidewaysEdge u v) := by
  apply handleEdge_eq_of_aux
  simp [handleEdgeAux, huv, h1, h2, heq]

theorem handleEdgeAux_fwd_noLevel {V : Type} [DecidableEq V] (ranks : List (V × Int))
    (fuel : Nat) (a b : V) (st : BuildState V) {ra rb : Int} (hab : ¬ a = b)
    (h1 : alookup ranks a = some ra) (h2 : alookup ranks b = some rb) (hlt : ra < rb)
    (hnone : alookup st.vertexToLevelNode a = none ∨ alookup st.vertexToLevelNode b = none) :
    handleEdgeAux ranks (fuel+1) a b st = some (.error .missingLevelNode) := by
  have h3 : ¬ rb = ra := by omega
  have h4 : ¬ rb < ra := by omega
  rcases hnone with hn | hn
  · simp [handleEdgeAux, hab, h1, h2, h3, h4, hn]
  · cases hfa : alookup st.vertexToLevelNode a with
    | none => simp [handleEdgeAux, hab, h1, h2, h3, h4, hfa]
    | some i => simp [handleEdgeAux, hab, h1, h2, h3, h4, hfa, hn]

/-- Complete case analysis of a successful `handleEdge`: the state only
grows, and the produced chain is the self-loop singleton, a good forward
chain, or the reversal of a good forward chain for the swapped endpoints. -/
theorem handleEdge_ok_destruct {V : Type} [DecidableEq V] {ranks : List (V × Int)}
    {u v : V} {st : BuildState V} {c0 : List Nat} {st1 : BuildState V}
    (hvtl : InvVTL st) (h : handleEdge ranks u v st = .ok (c0, st1)) :
    StateLe st st1 ∧ InvVTL st1 ∧
    ((u = v ∧ st1 = st ∧ ∃ (i : Nat) (nd : LNode V), c0 = [i] ∧
        st.nodes[i]? = some nd ∧ nd.vertex = some u) ∨
     (∃ ru rv, alookup ranks u = some ru ∧ alookup ranks v = some rv ∧ ru < rv ∧
       ChainGood st1 u v ru rv c0) ∨
     (∃ ru rv ch0, alookup ranks u = some ru ∧ alookup ranks v = some rv ∧ rv < ru ∧
       c0 = ch0.reverse ∧ ChainGood st1 v u rv ru ch0)) := by
  by_cases huv : u = v
  · subst huv
    cases hvl : alookup st.vertexToLevelNode u with
    | none =>
      have : handleEdge ranks u u st = .error .missingLevelNodeOrSelfCycle := by
        apply handleEdge_eq_of_aux
        simp [handleEdgeAux, hvl]
      rw [this] at h
      cases h
    | some i =>
      have heq : handleEdge ranks u u st = .ok ([i], st) := by
        apply handleEdge_eq_of_aux
        simp [handleEdgeAux, hvl]
      rw [heq] at h
      cases h
      obtain ⟨nd, hnd, hv⟩ := hvtl u i hvl
      exact ⟨StateLe.refl st, hvtl, Or.inl ⟨rfl, rfl, i, nd, rfl, hnd, hv⟩⟩
  · cases h1 : alookup ranks u with
    | none =>
      have : handleEdge ranks u v st = .error .vertexWithNoRank := by
        apply handleEdge_eq_of_aux
        simp [handleEdgeAux, huv, h1]
      rw [this] at h
      cases h
    | some ru =>
      cases h2 : alookup ranks v with
      | none =>
        have : handleEdge ranks u v st = .error .vertexWithNoRank := by
          apply handleEdge_eq_of_aux
          simp [handleEdgeAux, huv, h1, h2]
        rw [this] at h
        cases h
      | some rv =>
        by_cases h3 : rv = ru
        · rw [handleEdge_sideways ranks u v st huv h1 h2 h3] at h
          cases h
        · by_cases h4 : rv < ru
          · -- back edge
            have hvu : ¬ v = u := fun hh => huv hh.symm
            have e2 : (2:Nat) = 1 + 1 := rfl
            have hb := handleEdgeAux_back ranks u v st 1 huv h1 h2 h4
            cases hfv : alookup st.vertexToLevelNode v with
            | none =>
              have hin := handleEdgeAux_fwd_noLevel ranks 0 v u st hvu h2 h1 h4 (Or.inl hfv)
              have : handleEdge ranks u v st = .error .missingLevelNode := by
                apply handleEdge_eq_of_aux
                rw [e2, hb, hin]
                rfl
              rw [this] at h
              cases h
            | some fi2 =>
              cases hfu : alookup st.vertexToLevelNode u with
              | none =>
                have hin := handleEdgeAux_fwd_noLevel ranks 0 v u st hvu h2 h1 h4 (Or.inr hfu)
                have : handleEdge ranks u v st = .error .missingLevelNode := by
                  apply handleEdge_eq_of_aux
                  rw [e2, hb, hin]
                  rfl
                rw [this] at h
                cases h
              | some ti2 =>
                obtain ⟨ch, st', hrun, hle, hinv, hgood⟩ :=
                  handleEdgeAux_forward ranks 0 v u st rv ru fi2 ti2 hvu h2 h1 h4 hfv hfu hvtl
                have : handleEdge ranks u v st = .ok (ch.reverse, st') := by
                  apply handleEdge_eq_of_aux
                  rw [e2, hb, hrun]
                  rfl
                rw [this] at h
                cases h
                exact ⟨hle, hinv, Or.inr (Or.inr ⟨ru, rv, ch, rfl, rfl, h4, rfl, hgood⟩)⟩
          · -- forward edge
            have hlt : ru < rv := by omega
            cases hfu : alookup st.vertexToLevelNode u with
            | none =>
              have hin := handleEdgeAux_fwd_noLevel ranks 1 u v st huv h1 h2 hlt (Or.inl hfu)
              have : handleEdge ranks u v st = .error .missingLevelNode :=
                handleEdge_eq_of_aux hin
              rw [this] at h
              cases h
            | some fi =>
              cases hfv : alookup st.vertexToLevelNode v with
              | none =>
                have hin := handleEdgeAux_fwd_noLevel ranks 1 u v st huv h1 h2 hlt (Or.inr hfv)
                have : handleEdge ranks u v st = .error .missingLevelNode :=
                  handleEdge_eq_of_aux hin
                rw [this] at h
                cases h
              | some ti =>
                obtain ⟨ch, st', hrun, hle, hinv, hgood⟩ :=
                  handleEdgeAux_forward ranks 1 u v st ru rv fi ti huv h1 h2 hlt hfu hfv hvtl
                have : handleEdge ranks u v st = .ok (ch, st') :=
                  handleEdge_eq_of_aux hrun
                rw [this] at h
                cases h
                exact ⟨hle, hinv, Or.inr (Or.inl ⟨ru, rv, rfl, rfl, hlt, hgood⟩)⟩

theorem processFold_error {V : Type} [DecidableEq V] (ranks : List (V × Int))
    (edges : List (V × V)) (err : LayoutError V) :
    edges.foldl
      (fun (acc2 : Except (LayoutError V) (List (List Nat) × BuildState V)) e =>
        acc2.bind (fun p =>
          (handleEdge ranks e.1 e.2 p.2).map (fun q => (p.1 ++ [q.1], q.2))))
      (.error err) = .error err := by
  induction edges with
  | nil => rfl
  | cons e rest ih => rw [List.foldl_cons]; exact ih

/-- Per-edge characterisation of a successful recorded chain. -/
def EdgeChainCase {V : Type} [DecidableEq V] (ranks : List (V × Int)) (stF : BuildState V)
    (u v : V) (ch : List Nat) : Prop :=
  (u = v ∧ ∃ (i : Nat) (nd : LNode V), ch = [i] ∧ stF.nodes[i]? = some nd ∧
    nd.vertex = some u) ∨
  (∃ ru rv, alookup ranks u = some ru ∧ alookup ranks v = some rv ∧ ru < rv ∧
    ChainGood stF u v ru rv ch) ∨
  (∃ ru rv ch0, alookup ranks u = some ru ∧ alookup ranks v = some rv ∧ rv < ru ∧
    ch = ch0.reverse ∧ ChainGood stF v u rv ru ch0)

theorem EdgeChainCase.monoCase {V : Type} [DecidableEq V] {ranks : List (V × Int)}
    {s t : BuildState V} {u v : V} {ch : List Nat}
    (hle : StateLe s t) (h : EdgeChainCase ranks s u v ch) :
    EdgeChainCase ranks t u v ch := by
  rcases h with ⟨huv, i, nd, hch, hnd, hv⟩ | ⟨ru, rv, h1, h2, hlt, hg⟩ |
    ⟨ru, rv, ch0, h1, h2, hgt, hch, hg⟩
  · obtain ⟨nd', hnd', hv', _, _⟩ := hle.1 i nd hnd
    exact Or.inl ⟨huv, i, nd', hch, hnd', by rw [hv', hv]⟩
  · exact Or.inr (Or.inl ⟨ru, rv, h1, h2, hlt, hg.monoSt hle⟩)
  · exact Or.inr (Or.inr ⟨ru, rv, ch0, h1, h2, hgt, hch, hg.monoSt hle⟩)

theorem processEdges_spec {V : Type} [DecidableEq V] (ranks : List (V × Int)) :
    ∀ (edges : List (V × V)) (st : BuildState V) (acc : List (List Nat))
      (chains : List (List Nat)) (stF : BuildState V),
      InvVTL st →
      edges.foldl
        (fun (acc2 : Except (LayoutError V) (List (List Nat) × BuildState V)) e =>
          acc2.bind (fun p =>
            (handleEdge ranks e.1 e.2 p.2).map (fun q => (p.1 ++ [q.1], q.2))))
        (.ok (acc, st)) = .ok (chains, stF) →
      InvVTL stF ∧ StateLe st stF ∧
      chains.length = acc.length + edges.length ∧
      (∀ (k : Nat) x, acc[k]? = some x → chains[k]? = some x) ∧
      (∀ (idx : Nat) (u v : V), edges[idx]? = some (u, v) →
        ∃ ch, chains[acc.length + idx]? = some ch ∧ EdgeChainCase ranks stF u v ch) := by
  intro edges
  induction edges with
  | nil =>
    intro st acc chains stF hvtl h
    rw [List.foldl_nil] at h
    cases h
    refine ⟨hvtl, StateLe.refl st, by simp, fun k x hx => hx, ?_⟩
    intro idx u v hidx
    simp at hidx
  | cons e rest ih =>
    intro st acc chains stF hvtl h
    rw [List.foldl_cons] at h
    cases hstep : handleEdge ranks e.1 e.2 st with
    | error err =>
      rw [show ((.ok (acc, st) : Except (LayoutError V) (List (List Nat) × BuildState V)).bind
        (fun p => (handleEdge ranks e.1 e.2 p.2).map (fun q => (p.1 ++ [q.1], q.2)))) =
        .error err by simp [Except.bind, Except.map, hstep]] at h
      rw [processFold_error] at h
      cases h
    | ok res =>
      obtain ⟨c0, st1⟩ := res
      obtain ⟨hle1, hvtl1, hcase⟩ := handleEdge_ok_destruct hvtl hstep
      rw [show ((.ok (acc, st) : Except (LayoutError V) (List (List Nat) × BuildState V)).bind
        (fun p => (handleEdge ranks e.1 e.2 p.2).map (fun q => (p.1 ++ [q.1], q.2)))) =
        .ok (acc ++ [c0], st1) by simp [Except.bind, Except.map, hstep]] at h
      obtain ⟨hvtlF, hleF, hlen, hpres, hedges⟩ := ih st1 (acc ++ [c0]) chains stF hvtl1 h
      refine ⟨hvtlF, hle1.compLe hleF, by simp at hlen ⊢; omega, ?_, ?_⟩
      · intro k x hx
        refine hpres k x ?_
        rw [List.getElem?_append_left (getElem?_some_lt hx)]
        exact hx
      · intro idx u v hidx
        cases idx with
        | zero =>
          have he : e = (u, v) := by simpa using hidx
          subst he
          refine ⟨c0, ?_, ?_⟩
          · have : (acc ++ [c0])[acc.length]? = some c0 := List.getElem?_concat_length _ _
            have := hpres acc.length c0 this
            simpa using this
          · have hcase2 : EdgeChainCase ranks st1 u v c0 := by
              rcases hcase with ⟨huv, hst, i, nd, hch, hnd, hv⟩ | hrest | hrest
              · subst hst
                exact Or.inl ⟨huv, i, nd, hch, hnd, hv⟩
              · exact Or.inr (Or.inl hrest)
              · exact Or.inr (Or.inr hrest)
            exact hcase2.monoCase hleF
        | succ j =>
          have hj : rest[j]? = some (u, v) := by simpa using hidx
          obtain ⟨ch, hch, hc⟩ := hedges j u v hj
          refine ⟨ch, ?_, hc⟩
          rw [show acc.length + (j+1) = (acc ++ [c0]).length + j by simp; omega]
          exact hch

/-! ### What reindexing and the crossing passes preserve -/

/-- The identity-relevant part of a node: everything except its mutable
column index. -/
def coreOf {V : Type} (nd : LNode V) : Option V × List Nat × List Nat :=
  (nd.vertex, nd.parents, nd.children)

theorem modifyIndex_core {V : Type} :
    ∀ (ps : List (Nat × Nat)) (nodes : List (LNode V)) (i : Nat),
      (((ps.foldl (fun ns p => listModify ns p.2
        (fun nd => { nd with index := p.1 })) nodes))[i]?).map coreOf =
      (nodes[i]?).map coreOf := by
  intro ps
  induction ps with
  | nil => intro nodes i; rfl
  | cons p rest ih =>
    intro nodes i
    rw [List.foldl_cons, ih]
    rw [getElem?_listModify]
    by_cases hip : i = p.2
    · rw [if_pos hip]
      cases nodes[i]? with
      | none => rfl
      | some nd => rfl
    · rw [if_neg hip]

theorem reindexLevel_core {V : Type} (nodes : List (LNode V)) (level : List Nat) (i : Nat) :
    ((reindexLevel nodes level)[i]?).map coreOf = (nodes[i]?).map coreOf :=
  modifyIndex_core level.enum nodes i

theorem reindexLevel_length {V : Type} (nodes : List (LNode V)) (level : List Nat) :
    (reindexLevel nodes level).length = nodes.length := by
  unfold reindexLevel
  generalize level.enum = ps
  induction ps generalizing nodes with
  | nil => rfl
  | cons p rest ih =>
    rw [List.foldl_cons, ih, length_listModify]

theorem buildLevelsFold_spec {V : Type} (st : BuildState V) (minR : Int) :
    ∀ (ks : List Nat) (nodes0 : List (LNode V)) (rows0 : List (List Nat)),
      (ks.foldl (fun (acc : List (LNode V) × List (List Nat)) (k : Nat) =>
        (reindexLevel acc.1 (st.rankToLevel (minR + (k : Int))),
          acc.2 ++ [st.rankToLevel (minR + (k : Int))])) (nodes0, rows0)).2 =
        rows0 ++ ks.map (fun (k : Nat) => st.rankToLevel (minR + (k : Int))) ∧
      (∀ i : Nat, ((ks.foldl (fun (acc : List (LNode V) × List (List Nat)) (k : Nat) =>
        (reindexLevel acc.1 (st.rankToLevel (minR + (k : Int))),
          acc.2 ++ [st.rankToLevel (minR + (k : Int))])) (nodes0, rows0)).1[i]?).map coreOf =
        (nodes0[i]?).map coreOf) := by
  intro ks
  induction ks with
  | nil =>
    intro nodes0 rows0
    exact ⟨by simp, fun i => rfl⟩
  | cons k rest ih =>
    intro nodes0 rows0
    rw [List.foldl_cons]
    obtain ⟨ih1, ih2⟩ := ih (reindexLevel nodes0 (st.rankToLevel (minR + (k : Int))))
      (rows0 ++ [st.rankToLevel (minR + (k : Int))])
    constructor
    · rw [ih1]
      simp
    · intro i
      rw [ih2 i, reindexLevel_core]

theorem buildLevels_spec {V : Type} (st : BuildState V) (minR maxR : Int) :
    (buildLevels st minR maxR).2 =
      (List.range (maxR - minR + 1).toNat).map
        (fun (k : Nat) => st.rankToLevel (minR + (k : Int))) ∧
    (∀ i : Nat, ((buildLevels st minR maxR).1[i]?).map coreOf = (st.nodes[i]?).map coreOf) := by
  obtain ⟨h1, h2⟩ := buildLevelsFold_spec st minR (List.range (maxR - minR + 1).toNat) st.nodes []
  rw [List.nil_append] at h1
  unfold buildLevels
  exact ⟨h1, h2⟩

/-! ### The stable sort model and its properties -/

theorem refillRow_perm (w : Nat → Option ℚ) :
    ∀ (row sorted : List Nat),
      sorted.length = (row.filter (fun i => (w i).isSome)).length →
      (refillRow w row sorted).Perm
        ((row.filter (fun i => !(w i).isSome)) ++ sorted) := by
  intro row
  induction row with
  | nil =>
    intro sorted hlen
    simp at hlen
    simp [refillRow, hlen]
  | cons i rest ih =>
    intro sorted hlen
    by_cases hw : (w i).isSome
    · rw [List.filter_cons_of_pos (by simp [hw])] at hlen
      cases sorted with
      | nil => simp at hlen
      | cons s srest =>
        have hlen' : srest.length = (rest.filter (fun i => (w i).isSome)).length := by
          simpa using hlen
        have hstep : refillRow w (i :: rest) (s :: srest) = s :: refillRow w rest srest := by
          simp [refillRow, hw]
        rw [hstep]
        have hrec := ih srest hlen'
        have hfu : (i :: rest).filter (fun i => !(w i).isSome) =
            rest.filter (fun i => !(w i).isSome) := by
          rw [List.filter_cons_of_neg (by simp [hw])]
        rw [hfu]
        refine List.Perm.trans (hrec.cons s) ?_
        exact (List.perm_middle).symm
    · have hstep : refillRow w (i :: rest) sorted = i :: refillRow w rest sorted := by
        simp [refillRow, hw]
      have hlen' : sorted.length = (rest.filter (fun i => (w i).isSome)).length := by
        rw [List.filter_cons_of_neg (by simp [hw])] at hlen
        exact hlen
      rw [hstep]
      have hfu : (i :: rest).filter (fun i => !(w i).isSome) =
          i :: rest.filter (fun i => !(w i).isSome) := by
        rw [List.filter_cons_of_pos (by simp [hw])]
      rw [hfu, List.cons_append]
      exact (ih sorted hlen').cons i

theorem sortRowByWeight_perm (w : Nat → Option ℚ) (row : List Nat) :
    (sortRowByWeight w row).Perm row := by
  unfold sortRowByWeight
  have hlen : (List.insertionSort (fun a b => (w a).getD 0 ≤ (w b).getD 0)
      (row.filter (fun i => (w i).isSome))).length =
      (row.filter (fun i => (w i).isSome)).length :=
    (List.perm_insertionSort _ _).length_eq
  refine (refillRow_perm w row _ hlen).trans ?_
  refine List.Perm.trans (List.Perm.append_left _ (List.perm_insertionSort _ _)) ?_
  have hcongr : row.filter (fun x => !(!(w x).isSome)) = row.filter (fun i => (w i).isSome) := by
    refine List.filter_congr (fun x _ => ?_)
    rw [Bool.not_not]
  refine List.Perm.trans ?_ (List.filter_append_perm (fun i => !(w i).isSome) row)
  rw [hcongr]

theorem forall₂_perm_refl (l : List (List Nat)) :
    List.Forall₂ (fun a b => a.Perm b) l l := by
  induction l with
  | nil => exact List.Forall₂.nil
  | cons x rest ih => exact List.Forall₂.cons (List.Perm.refl x) ih

theorem forall₂_perm_trans :
    ∀ {a b c : List (List Nat)}, List.Forall₂ (fun x y => x.Perm y) a b →
      List.Forall₂ (fun x y => x.Perm y) b c → List.Forall₂ (fun x y => x.Perm y) a c := by
  intro a b c h1
  induction h1 generalizing c with
  | nil =>
    intro h2
    cases h2
    exact List.Forall₂.nil
  | cons hxy htail ih =>
    intro h2
    cases h2 with
    | cons hyz htail2 => exact List.Forall₂.cons (hxy.trans hyz) (ih htail2)

theorem forall₂_perm_set :
    ∀ (l : List (List Nat)) (i : Nat) (r : List Nat),
      (∀ x, l[i]? = some x → r.Perm x) →
      List.Forall₂ (fun a b => a.Perm b) (l.set i r) l := by
  intro l
  induction l with
  | nil =>
    intro i r _
    exact List.Forall₂.nil
  | cons x rest ih =>
    intro i r h
    cases i with
    | zero =>
      rw [List.set_cons_zero]
      exact List.Forall₂.cons (h x (by simp)) (forall₂_perm_refl rest)
    | succ j =>
      rw [List.set_cons_succ]
      exact List.Forall₂.cons (List.Perm.refl x) (ih j r (fun y hy => h y (by simpa using hy)))

theorem sweepFold_rows {V : Type} (W : List (LNode V) → Nat → Option ℚ) :
    ∀ (idxs : List Nat) (s : CrossState V),
      List.Forall₂ (fun a b => a.Perm b)
        ((idxs.foldl (fun (s2 : CrossState V) j =>
          let sorted := sortRowByWeight (W s2.nodes) ((s2.levels[j]?).getD [])
          (⟨reindexLevel s2.nodes sorted, s2.levels.set j sorted⟩ : CrossState V)) s).levels)
        s.levels := by
  intro idxs
  induction idxs with
  | nil => intro s; exact forall₂_perm_refl _
  | cons j rest ih =>
    intro s
    rw [List.foldl_cons]
    refine forall₂_perm_trans (ih _) ?_
    show List.Forall₂ _ (s.levels.set j _) s.levels
    refine forall₂_perm_set _ _ _ ?_
    intro x hx
    rw [show ((s.levels[j]?).getD []) = x by rw [hx]; rfl]
    exact sortRowByWeight_perm _ x

theorem sweepFold_core {V : Type} (W : List (LNode V) → Nat → Option ℚ) :
    ∀ (idxs : List Nat) (s : CrossState V) (i : Nat),
      (((idxs.foldl (fun (s2 : CrossState V) j =>
        let sorted := sortRowByWeight (W s2.nodes) ((s2.levels[j]?).getD [])
        (⟨reindexLevel s2.nodes sorted, s2.levels.set j sorted⟩ : CrossState V)) s).nodes)[i]?).map
        coreOf = (s.nodes[i]?).map coreOf := by
  intro idxs
  induction idxs with
  | nil => intro s i; rfl
  | cons j rest ih =>
    intro s i
    rw [List.foldl_cons, ih]
    exact reindexLevel_core _ _ _

theorem downSweep_rows {V : Type} (st : CrossState V) :
    List.Forall₂ (fun a b => a.Perm b) (downSweep st).levels st.levels := by
  unfold downSweep
  exact sweepFold_rows levelNodeParentWeight _ st

theorem upSweep_rows {V : Type} (st : CrossState V) :
    List.Forall₂ (fun a b => a.Perm b) (upSweep st).levels st.levels := by
  unfold upSweep
  exact sweepFold_rows levelNodeChildWeight _ st

theorem downSweep_core {V : Type} (st : CrossState V) (i : Nat) :
    ((downSweep st).nodes[i]?).map coreOf = (st.nodes[i]?).map coreOf := by
  unfold downSweep
  exact sweepFold_core levelNodeParentWeight _ st i

theorem upSweep_core {V : Type} (st : CrossState V) (i : Nat) :
    ((upSweep st).nodes[i]?).map coreOf = (st.nodes[i]?).map coreOf := by
  unfold upSweep
  exact sweepFold_core levelNodeChildWeight _ st i

theorem crossingPasses_rows {V : Type} (st : CrossState V) :
    List.Forall₂ (fun a b => a.Perm b) (crossingPasses st).levels st.levels := by
  unfold crossingPasses
  generalize List.range 4 = l
  induction l generalizing st with
  | nil => exact forall₂_perm_refl _
  | cons x rest ih =>
    rw [List.foldl_cons]
    refine forall₂_perm_trans (ih (fullPass st)) ?_
    unfold fullPass
    exact forall₂_perm_trans (upSweep_rows _) (downSweep_rows _)

theorem crossingPasses_core {V : Type} (st : CrossState V) (i : Nat) :
    ((crossingPasses st).nodes[i]?).map coreOf = (st.nodes[i]?).map coreOf := by
  unfold crossingPasses
  generalize List.range 4 = l
  induction l generalizing st with
  | nil => rfl
  | cons x rest ih =>
    rw [List.foldl_cons, ih (fullPass st)]
    unfold fullPass
    rw [upSweep_core, downSweep_core]

theorem sweepFold_nodes_length {V : Type} (W : List (LNode V) → Nat → Option ℚ) :
    ∀ (idxs : List Nat) (s : CrossState V),
      ((idxs.foldl (fun (s2 : CrossState V) j =>
        let sorted := sortRowByWeight (W s2.nodes) ((s2.levels[j]?).getD [])
        (⟨reindexLevel s2.nodes sorted, s2.levels.set j sorted⟩ : CrossState V)) s).nodes).length
        = s.nodes.length := by
  intro idxs
  induction idxs with
  | nil => intro s; rfl
  | cons j rest ih =>
    intro s
    rw [List.foldl_cons, ih]
    exact reindexLevel_length _ _

theorem crossingPasses_nodes_length {V : Type} (st : CrossState V) :
    (crossingPasses st).nodes.length = st.nodes.length := by
  unfold crossingPasses
  generalize List.range 4 = l
  induction l generalizing st with
  | nil => rfl
  | cons x rest ih =>
    rw [List.foldl_cons, ih (fullPass st)]
    unfold fullPass upSweep downSweep
    rw [sweepFold_nodes_length, sweepFold_nodes_length]

/-- C7: The crossing-minimization passes change only the intra-row order (and
index fields) of LevelNodes. After all passes each row is a permutation of the
corresponding row before the passes (same node ids, same length), the number of
rows is unchanged, and the node arena is unchanged except for index fields
(same length, and each slot keeps its vertex, parents and children). -/
theorem claim7_crossing_preserves_rows {V : Type} (st : CrossState V) :
    List.Forall₂ (fun rowAfter rowBefore => rowAfter.Perm rowBefore)
      (crossingPasses st).levels st.levels ∧
    (crossingPasses st).levels.length = st.levels.length ∧
    (crossingPasses st).nodes.length = st.nodes.length ∧
    ∀ i : Nat, ((crossingPasses st).nodes[i]?).map coreOf = (st.nodes[i]?).map coreOf := by
  refine ⟨crossingPasses_rows st, (crossingPasses_rows st).length_eq,
    crossingPasses_nodes_length st, fun i => crossingPasses_core st i⟩

/-! ### Assembling the per-edge chain facts into `ranksToLevels` -/

/-- The fold body of `placeVertices`, named for the induction. -/
def placeStep {V : Type} [DecidableEq V] (st : BuildState V) (p : V × Int) : BuildState V :=
  { nodes := st.nodes ++ [⟨[], [], some p.1, 0⟩],
    rankToLevel := fun r' =>
      if r' = p.2 then st.rankToLevel r' ++ [st.nodes.length] else st.rankToLevel r',
    vertexToLevelNode := mapSet st.vertexToLevelNode p.1 st.nodes.length }

theorem placeVertices_eq {V : Type} [DecidableEq V] (ranks : List (V × Int)) :
    placeVertices ranks = ranks.foldl placeStep ⟨[], fun _ => [], []⟩ := rfl

theorem invVTL_placeStep {V : Type} [DecidableEq V] (st : BuildState V) (p : V × Int)
    (h : InvVTL st) : InvVTL (placeStep st p) := by
  intro w i hw
  rw [show (placeStep st p).vertexToLevelNode
    = mapSet st.vertexToLevelNode p.1 st.nodes.length from rfl, alookup_mapSet] at hw
  by_cases hwp : w = p.1
  · rw [if_pos hwp] at hw
    cases hw
    refine ⟨⟨[], [], some p.1, 0⟩, ?_, by simp [hwp]⟩
    exact getElem?_concat_len _ _
  · rw [if_neg hwp] at hw
    obtain ⟨nd, hnd, hv⟩ := h w i hw
    refine ⟨nd, ?_, hv⟩
    show (st.nodes ++ _)[i]? = some nd
    rw [List.getElem?_append_left (getElem?_some_lt hnd)]
    exact hnd

theorem placeStep_keeps {V : Type} [DecidableEq V] (st : BuildState V) (p : V × Int) (w : V)
    (h : (alookup st.vertexToLevelNode w).isSome) :
    (alookup (placeStep st p).vertexToLevelNode w).isSome := by
  rw [show (placeStep st p).vertexToLevelNode
    = mapSet st.vertexToLevelNode p.1 st.nodes.length from rfl, alookup_mapSet]
  by_cases hwp : w = p.1
  · rw [if_pos hwp]; rfl
  · rw [if_neg hwp]; exact h

theorem placeFold_spec {V : Type} [DecidableEq V] :
    ∀ (pairs : List (V × Int)) (st : BuildState V), InvVTL st →
      InvVTL (pairs.foldl placeStep st) ∧
      (∀ w : V, (alookup st.vertexToLevelNode w).isSome →
        (alookup (pairs.foldl placeStep st).vertexToLevelNode w).isSome) ∧
      (∀ (w : V) (r : Int), (w, r) ∈ pairs →
        (alookup (pairs.foldl placeStep st).vertexToLevelNode w).isSome) := by
  intro pairs
  induction pairs with
  | nil =>
    intro st h
    exact ⟨h, fun w hw => hw, fun w r hwr => by simp at hwr⟩
  | cons p rest ih =>
    intro st h
    rw [List.foldl_cons]
    obtain ⟨ih1, ih2, ih3⟩ := ih (placeStep st p) (invVTL_placeStep st p h)
    refine ⟨ih1, fun w hw => ih2 w (placeStep_keeps st p w hw), ?_⟩
    intro w r hwr
    rcases List.mem_cons.mp hwr with heq | hmem
    · refine ih2 w ?_
      rw [show (placeStep st p).vertexToLevelNode
        = mapSet st.vertexToLevelNode p.1 st.nodes.length from rfl, alookup_mapSet]
      rw [if_pos (by rw [← heq])]
      rfl
    · exact ih3 w r hmem

theorem placeVertices_spec {V : Type} [DecidableEq V] (ranks : List (V × Int)) :
    InvVTL (placeVertices ranks) ∧
    ∀ (w : V) (r : Int), (w, r) ∈ ranks →
      (alookup (placeVertices ranks).vertexToLevelNode w).isSome := by
  have hempty : InvVTL (⟨[], fun _ => [], []⟩ : BuildState V) := by
    intro w i hw
    simp [alookup] at hw
  obtain ⟨h1, _, h3⟩ := placeFold_spec ranks ⟨[], fun _ => [], []⟩ hempty
  rw [placeVertices_eq]
  exact ⟨h1, h3⟩

theorem foldlMin_le_init {V : Type} :
    ∀ (l : List (V × Int)) (init : Int),
      l.foldl (fun m p => min m p.2) init ≤ init := by
  intro l
  induction l with
  | nil => intro init; exact le_refl _
  | cons p rest ih =>
    intro init
    rw [List.foldl_cons]
    exact le_trans (ih (min init p.2)) (min_le_left _ _)

theorem minRankOf_le_mem {V : Type} :
    ∀ (l : List (V × Int)) (init : Int) (w : V) (r : Int), (w, r) ∈ l →
      l.foldl (fun m p => min m p.2) init ≤ r := by
  intro l
  induction l with
  | nil => intro init w r h; simp at h
  | cons p rest ih =>
    intro init w r h
    rw [List.foldl_cons]
    rcases List.mem_cons.mp h with heq | hmem
    · refine le_trans (foldlMin_le_init rest _) ?_
      rw [← heq]
      exact min_le_right _ _
    · exact ih _ w r hmem

theorem minRankOf_le {V : Type} {ranks : List (V × Int)} {w : V} {r : Int}
    (h : (w, r) ∈ ranks) : minRankOf ranks ≤ r :=
  minRankOf_le_mem ranks 0 w r h

theorem init_le_foldlMax {V : Type} :
    ∀ (l : List (V × Int)) (init : Int),
      init ≤ l.foldl (fun m p => max m p.2) init := by
  intro l
  induction l with
  | nil => intro init; exact le_refl _
  | cons p rest ih =>
    intro init
    rw [List.foldl_cons]
    exact le_trans (le_max_left _ _) (ih (max init p.2))

theorem maxRankOf_mem_le {V : Type} :
    ∀ (l : List (V × Int)) (init : Int) (w : V) (r : Int), (w, r) ∈ l →
      r ≤ l.foldl (fun m p => max m p.2) init := by
  intro l
  induction l with
  | nil => intro init w r h; simp at h
  | cons p rest ih =>
    intro init w r h
    rw [List.foldl_cons]
    rcases List.mem_cons.mp h with heq | hmem
    · refine le_trans ?_ (init_le_foldlMax rest _)
      rw [← heq]
      exact le_max_right _ _
    · exact ih _ w r hmem

theorem le_maxRankOf {V : Type} {ranks : List (V × Int)} {w : V} {r : Int}
    (h : (w, r) ∈ ranks) : r ≤ maxRankOf ranks :=
  maxRankOf_mem_le ranks 0 w r h

theorem forall₂_getElem_right {α β : Type} {R : α → β → Prop} :
    ∀ {l : List α} {l' : List β}, List.Forall₂ R l l' →
      ∀ (j : Nat) (b : β), l'[j]? = some b → ∃ a, l[j]? = some a ∧ R a b := by
  intro l l' h
  induction h with
  | nil => intro j b hb; simp at hb
  | @cons x y tl tl' hxy htl ih =>
    intro j b hb
    cases j with
    | zero =>
      have hyb : y = b := by simpa using hb
      exact ⟨x, by simp, hyb ▸ hxy⟩
    | succ jj =>
      rw [List.getElem?_cons_succ] at hb
      obtain ⟨a, ha, hr⟩ := ih jj b hb
      exact ⟨a, by rw [List.getElem?_cons_succ]; exact ha, hr⟩

theorem core_lookup {V : Type} {A B : List (LNode V)} {i : Nat}
    (h : (A[i]?).map coreOf = (B[i]?).map coreOf) {nd : LNode V}
    (hB : B[i]? = some nd) :
    ∃ nd' : LNode V, A[i]? = some nd' ∧ nd'.vertex = nd.vertex ∧
      nd'.parents = nd.parents ∧ nd'.children = nd.children := by
  rw [hB] at h
  cases hA : A[i]? with
  | none => rw [hA] at h; simp at h
  | some nd' =>
    rw [hA] at h
    simp [coreOf] at h
    exact ⟨nd', rfl, h.1, h.2.1, h.2.2⟩

theorem processEdges_eq_fold {V : Type} [DecidableEq V] (ranks : List (V × Int))
    (edges : List (V × V)) (st : BuildState V) :
    processEdges ranks edges st = edges.foldl
      (fun (acc2 : Except (LayoutError V) (List (List Nat) × BuildState V)) e =>
        acc2.bind (fun p =>
          (handleEdge ranks e.1 e.2 p.2).map (fun q => (p.1 ++ [q.1], q.2))))
      (.ok ([], st)) := rfl

theorem ranksToLevels_ok_destruct {V : Type} [DecidableEq V] {ranks : List (V × Int)}
    {edges : List (V × V)} {res : LevelResult V}
    (h : ranksToLevels ranks edges = .ok res) :
    ∃ (chains : List (List Nat)) (stF : BuildState V),
      processEdges ranks edges (placeVertices ranks) = .ok (chains, stF) ∧
      res.edgeToLevelNodes = chains ∧
      (∀ i : Nat, (res.nodes[i]?).map coreOf = (stF.nodes[i]?).map coreOf) ∧
      List.Forall₂ (fun a b => a.Perm b) res.levels
        ((List.range (maxRankOf ranks - minRankOf ranks + 1).toNat).map
          (fun (k : Nat) => stF.rankToLevel (minRankOf ranks + (k : Int)))) := by
  unfold ranksToLevels at h
  cases hpe : processEdges ranks edges (placeVertices ranks) with
  | error err =>
    rw [hpe] at h
    simp [Except.map] at h
  | ok p =>
    obtain ⟨chains, stF⟩ := p
    rw [hpe] at h
    have hres : res = ⟨(crossingPasses ⟨(buildLevels stF (minRankOf ranks) (maxRankOf ranks)).1,
        (buildLevels stF (minRankOf ranks) (maxRankOf ranks)).2⟩).nodes,
      (crossingPasses ⟨(buildLevels stF (minRankOf ranks) (maxRankOf ranks)).1,
        (buildLevels stF (minRankOf ranks) (maxRankOf ranks)).2⟩).levels, chains⟩ := by
      have h2 := h
      simp [Except.map] at h2
      exact h2.symm
    obtain ⟨hb1, hb2⟩ := buildLevels_spec stF (minRankOf ranks) (maxRankOf ranks)
    refine ⟨chains, stF, rfl, by rw [hres], ?_, ?_⟩
    · intro i
      rw [hres]
      dsimp only
      rw [crossingPasses_core]
      exact hb2 i
    · rw [hres]
      dsimp only
      rw [← hb1]
      exact crossingPasses_rows _

/-- C1: For every edge `u→v` with `rank u ≤ rank v` handled by a successful
level construction (including self-loops, whose chain is the single real
LevelNode of `u`), the chain recorded for the edge in the final result has
`rank v - rank u + 1` entries: the first is the real LevelNode wrapping `u`,
the last the real LevelNode wrapping `v`, every interior entry is a virtual
node placed in the row of rank `rank u + k` (strictly between the two
ranks), and consecutive entries are linked by a parent/child relation. -/
theorem claim1_edge_chains {V : Type} [DecidableEq V] (ranks : List (V × Int))
    (edges : List (V × V)) (res : LevelResult V) (idx : Nat) (u v : V) (ru rv : Int)
    (hres : ranksToLevels ranks edges = .ok res)
    (hidx : edges[idx]? = some (u, v))
    (hu : alookup ranks u = some ru) (hv : alookup ranks v = some rv)
    (hle : ru ≤ rv) :
    ∃ ch, res.edgeToLevelNodes[idx]? = some ch ∧
      ch.length = (rv - ru).toNat + 1 ∧
      (∃ (i : Nat) (nd : LNode V), ch.head? = some i ∧ res.nodes[i]? = some nd ∧
        nd.vertex = some u) ∧
      (∃ (j : Nat) (nd : LNode V), ch.getLast? = some j ∧ res.nodes[j]? = some nd ∧
        nd.vertex = some v) ∧
      (∀ (k nid : Nat), ch[k]? = some nid → 0 < k → k + 1 < ch.length →
        ∃ nd : LNode V, res.nodes[nid]? = some nd ∧ nd.vertex = none ∧
          ∃ row, res.levels[(ru + (k : Int) - minRankOf ranks).toNat]? = some row ∧
            nid ∈ row) ∧
      (∀ (k a b : Nat), ch[k]? = some a → ch[k+1]? = some b →
        (∃ nda : LNode V, res.nodes[a]? = some nda ∧ b ∈ nda.children) ∧
        (∃ ndb : LNode V, res.nodes[b]? = some ndb ∧ a ∈ ndb.parents)) := by
  obtain ⟨chains, stF, hpe, hch, hcore, hlv⟩ := ranksToLevels_ok_destruct hres
  obtain ⟨hinv0, _⟩ := placeVertices_spec ranks
  rw [processEdges_eq_fold] at hpe
  obtain ⟨hinvF, hleF, hlen, _, hper⟩ :=
    processEdges_spec ranks edges (placeVertices ranks) [] chains stF hinv0 hpe
  obtain ⟨ch, hchain, hcase⟩ := hper idx u v hidx
  have hchain' : chains[idx]? = some ch := by simpa using hchain
  have hminu : minRankOf ranks ≤ ru := minRankOf_le (alookup_mem hu)
  have hmaxv : rv ≤ maxRankOf ranks := le_maxRankOf (alookup_mem hv)
  refine ⟨ch, by rw [hch]; exact hchain', ?_⟩
  rcases hcase with ⟨huv, i, nd, hcheq, hnd, hvtx⟩ |
    ⟨ru', rv', hu', hv', hlt, hg⟩ | ⟨ru', rv', ch0, hu', hv', hgt, _, _⟩
  · -- self loop
    subst huv
    have hruv : ru = rv := by
      rw [hu] at hv
      exact Option.some.inj hv
    subst hcheq
    obtain ⟨nd', hnd', hveq, _, _⟩ := core_lookup (hcore i) hnd
    refine ⟨by rw [← hruv]; simp, ⟨i, nd', rfl, hnd', by rw [hveq, hvtx]⟩,
      ⟨i, nd', rfl, hnd', by rw [hveq, hvtx]⟩, ?_, ?_⟩
    · intro k nid hk h0 hk1
      have h1 : k + 1 < 1 := by simpa using hk1
      omega
    · intro k a b hka hkb
      have h1 : k + 1 < 1 := by simpa using getElem?_some_lt hkb
      omega
  · -- forward edge
    have e1 : ru' = ru := Option.some.inj (hu'.symm.trans hu)
    have e2 : rv' = rv := Option.some.inj (hv'.symm.trans hv)
    rw [e1, e2] at hlt hg
    obtain ⟨hglen, ⟨i, ndi, hh, hni, hvi⟩, ⟨j, ndj, hl, hnj, hvj⟩, hint, hlink⟩ := hg
    obtain ⟨ndi', hni', hvi', _, _⟩ := core_lookup (hcore i) hni
    obtain ⟨ndj', hnj', hvj', _, _⟩ := core_lookup (hcore j) hnj
    refine ⟨hglen, ⟨i, ndi', hh, hni', by rw [hvi', hvi]⟩,
      ⟨j, ndj', hl, hnj', by rw [hvj', hvj]⟩, ?_, ?_⟩
    · intro k nid hk h0 hk1
      obtain ⟨nd0, hn0, hv0, hmem⟩ := hint k nid hk h0 hk1
      obtain ⟨nd0', hn0', hv0', _, _⟩ := core_lookup (hcore nid) hn0
      have hkint : (k : Int) < rv - ru := by
        rw [hglen] at hk1
        omega
      have hj2 : minRankOf ranks + ((ru + (k : Int) - minRankOf ranks).toNat : Int)
          = ru + (k : Int) := by omega
      have hj2lt : (ru + (k : Int) - minRankOf ranks).toNat
          < (maxRankOf ranks - minRankOf ranks + 1).toNat := by omega
      have hrhs : ((List.range (maxRankOf ranks - minRankOf ranks + 1).toNat).map
          (fun (k2 : Nat) => stF.rankToLevel (minRankOf ranks + (k2 : Int))))[
            (ru + (k : Int) - minRankOf ranks).toNat]?
          = some (stF.rankToLevel (ru + (k : Int))) := by
        rw [List.getElem?_map, List.getElem?_range hj2lt]
        exact congrArg (fun r => some (stF.rankToLevel r)) hj2
      obtain ⟨row, hrow, hperm⟩ := forall₂_getElem_right hlv _ _ hrhs
      refine ⟨nd0', hn0', by rw [hv0', hv0], row, hrow, ?_⟩
      exact hperm.mem_iff.mpr hmem
    · intro k a b hka hkb
      obtain ⟨⟨nda, hna, hbc⟩, ⟨ndb, hnb, hap⟩⟩ := hlink k a b hka hkb
      obtain ⟨nda', hna', _, _, hca'⟩ := core_lookup (hcore a) hna
      obtain ⟨ndb', hnb', _, hpb', _⟩ := core_lookup (hcore b) hnb
      exact ⟨⟨nda', hna', by rw [hca']; exact hbc⟩, ⟨ndb', hnb', by rw [hpb']; exact hap⟩⟩
  · -- back edge: contradicts ru ≤ rv
    have e1 : ru' = ru := Option.some.inj (hu'.symm.trans hu)
    have e2 : rv' = rv := Option.some.inj (hv'.symm.trans hv)
    rw [e1, e2] at hgt
    omega

def c1ranks : List (Nat × Int) := [(0, 0), (1, 2)]

def c1edges : List (Nat × Nat) := [(0, 1)]

/-- The level structure the pipeline computes for `c1ranks`/`c1edges`. -/
def c1res : LevelResult Nat :=
  ⟨[⟨[], [2], some 0, 0⟩, ⟨[2], [], some 1, 0⟩, ⟨[0], [1], none, 0⟩],
   [[0], [2], [1]], [[0, 2, 1]]⟩

theorem claim1_edge_chains_witness :
    ∃ ch, c1res.edgeToLevelNodes[0]? = some ch ∧
      ch.length = ((2 : Int) - 0).toNat + 1 ∧
      (∃ (i : Nat) (nd : LNode Nat), ch.head? = some i ∧ c1res.nodes[i]? = some nd ∧
        nd.vertex = some 0) ∧
      (∃ (j : Nat) (nd : LNode Nat), ch.getLast? = some j ∧ c1res.nodes[j]? = some nd ∧
        nd.vertex = some 1) ∧
      (∀ (k nid : Nat), ch[k]? = some nid → 0 < k → k + 1 < ch.length →
        ∃ nd : LNode Nat, c1res.nodes[nid]? = some nd ∧ nd.vertex = none ∧
          ∃ row, c1res.levels[((0 : Int) + (k : Int) - minRankOf c1ranks).toNat]? = some row ∧
            nid ∈ row) ∧
      (∀ (k a b : Nat), ch[k]? = some a → ch[k+1]? = some b →
        (∃ nda : LNode Nat, c1res.nodes[a]? = some nda ∧ b ∈ nda.children) ∧
        (∃ ndb : LNode Nat, c1res.nodes[b]? = some ndb ∧ a ∈ ndb.parents)) :=
  claim1_edge_chains c1ranks c1edges c1res 0 0 1 0 2 (by rfl) (by rfl) (by rfl) (by rfl)
    (by decide)

/-- A fully-ranked, non-sideways edge is always handled successfully when
every ranked vertex has a real LevelNode. -/
theorem handleEdge_ok_of_ranked {V : Type} [DecidableEq V] (ranks : List (V × Int))
    (a b : V) (st : BuildState V) {ra rb : Int}
    (hinv : InvVTL st)
    (hcov : ∀ (w : V) (rw : Int), alookup ranks w = some rw →
      (alookup st.vertexToLevelNode w).isSome)
    (ha : alookup ranks a = some ra) (hb : alookup ranks b = some rb)
    (hok : a = b ∨ ra ≠ rb) :
    ∃ c0 st1, handleEdge ranks a b st = .ok (c0, st1) ∧ StateLe st st1 ∧ InvVTL st1 := by
  by_cases hab : a = b
  · subst hab
    cases hvl : alookup st.vertexToLevelNode a with
    | none =>
      have := hcov a ra ha
      rw [hvl] at this
      cases this
    | some i =>
      refine ⟨[i], st, ?_, StateLe.refl st, hinv⟩
      apply handleEdge_eq_of_aux
      simp [handleEdgeAux, hvl]
  · have hne : ra ≠ rb := by
      rcases hok with h | h
      · exact absurd h hab
      · exact h
    cases hfa : alookup st.vertexToLevelNode a with
    | none =>
      have := hcov a ra ha
      rw [hfa] at this
      cases this
    | some fi =>
      cases hfb : alookup st.vertexToLevelNode b with
      | none =>
        have := hcov b rb hb
        rw [hfb] at this
        cases this
      | some ti =>
        by_cases h4 : rb < ra
        · -- back edge: the swapped call is a forward edge
          have hba : ¬ b = a := fun hh => hab hh.symm
          obtain ⟨ch, st', hrun, hle, hinv', _⟩ :=
            handleEdgeAux_forward ranks 0 b a st rb ra ti fi hba hb ha h4 hfb hfa hinv
          refine ⟨ch.reverse, st', ?_, hle, hinv'⟩
          apply handleEdge_eq_of_aux
          have e2 : (2:Nat) = 1 + 1 := rfl
          rw [e2, handleEdgeAux_back ranks a b st 1 hab ha hb h4, hrun]
          rfl
        · have hlt : ra < rb := by omega
          obtain ⟨ch, st', hrun, hle, hinv', _⟩ :=
            handleEdgeAux_forward ranks 1 a b st ra rb fi ti hab ha hb hlt hfa hfb hinv
          exact ⟨ch, st', handleEdge_eq_of_aux hrun, hle, hinv'⟩

/-- Running the per-edge fold up to the first sideways edge yields exactly
the sideways error for that edge. -/
theorem processFold_first_sideways {V : Type} [DecidableEq V] (ranks : List (V × Int)) :
    ∀ (edges : List (V × V)) (idx : Nat) (u v : V) (r : Int) (st : BuildState V)
      (acc : List (List Nat)),
      InvVTL st →
      (∀ (w : V) (rw : Int), alookup ranks w = some rw →
        (alookup st.vertexToLevelNode w).isSome) →
      (∀ e ∈ edges, (alookup ranks e.1).isSome ∧ (alookup ranks e.2).isSome) →
      edges[idx]? = some (u, v) → ¬ u = v →
      alookup ranks u = some r → alookup ranks v = some r →
      (∀ (j : Nat) (a b : V), j < idx → edges[j]? = some (a, b) →
        a = b ∨ ∀ ra rb, alookup ranks a = some ra → alookup ranks b = some rb → ra ≠ rb) →
      edges.foldl
        (fun (acc2 : Except (LayoutError V) (List (List Nat) × BuildState V)) e =>
          acc2.bind (fun p =>
            (handleEdge ranks e.1 e.2 p.2).map (fun q => (p.1 ++ [q.1], q.2))))
        (.ok (acc, st)) = .error (.sidewaysEdge u v) := by
  intro edges
  induction edges with
  | nil =>
    intro idx u v r st acc _ _ _ hidx
    intro _ _ _ _
    simp at hidx
  | cons e rest ih =>
    intro idx u v r st acc hinv hcov hranked hidx huv hu hv hfirst
    rw [List.foldl_cons]
    cases idx with
    | zero =>
      have he : e = (u, v) := by simpa using hidx
      subst he
      rw [show ((.ok (acc, st) : Except (LayoutError V) (List (List Nat) × BuildState V)).bind
        (fun p => (handleEdge ranks u v p.2).map (fun q => (p.1 ++ [q.1], q.2)))) =
        .error (.sidewaysEdge u v) by
          simp [Except.bind, Except.map, handleEdge_sideways ranks u v st huv hu hv rfl]]
      exact processFold_error ranks rest _
    | succ j =>
      obtain ⟨ra, hra⟩ := Option.isSome_iff_exists.mp (hranked e (by simp)).1
      obtain ⟨rb, hrb⟩ := Option.isSome_iff_exists.mp (hranked e (by simp)).2
      have hok : e.1 = e.2 ∨ ra ≠ rb := by
        rcases hfirst 0 e.1 e.2 (by omega) (by simp) with h | h
        · exact Or.inl h
        · exact Or.inr (h ra rb hra hrb)
      obtain ⟨c0, st1, hstep, hle, hinv1⟩ :=
        handleEdge_ok_of_ranked ranks e.1 e.2 st hinv hcov hra hrb hok
      rw [show ((.ok (acc, st) : Except (LayoutError V) (List (List Nat) × BuildState V)).bind
        (fun p => (handleEdge ranks e.1 e.2 p.2).map (fun q => (p.1 ++ [q.1], q.2)))) =
        .ok (acc ++ [c0], st1) by simp [Except.bind, Except.map, hstep]]
      refine ih j u v r st1 (acc ++ [c0]) hinv1 ?_ ?_ (by simpa using hidx) huv hu hv ?_
      · intro w rw hw
        rw [← hle.2.2]
        exact hcov w rw hw
      · intro e2 he2
        exact hranked e2 (by simp [he2])
      · intro j2 a b hj2 hjb
        exact hfirst (j2 + 1) a b (by omega) (by simpa using hjb)

/-- C4: an edge between distinct vertices whose endpoints share a rank is a
fatal error: provided every edge endpoint is ranked (as `rankVertices`
guarantees) and the sideways edge is the first one, `ranksToLevels` throws
`sidewaysEdge` naming both endpoints and produces no level structure. -/
theorem claim4_sideways_fatal {V : Type} [DecidableEq V] (ranks : List (V × Int))
    (edges : List (V × V)) (idx : Nat) (u v : V) (r : Int)
    (hranked : ∀ e ∈ edges, (alookup ranks e.1).isSome ∧ (alookup ranks e.2).isSome)
    (hidx : edges[idx]? = some (u, v)) (huv : ¬ u = v)
    (hu : alookup ranks u = some r) (hv : alookup ranks v = some r)
    (hfirst : ∀ (j : Nat) (a b : V), j < idx → edges[j]? = some (a, b) →
      a = b ∨ ∀ ra rb, alookup ranks a = some ra → alookup ranks b = some rb → ra ≠ rb) :
    ranksToLevels ranks edges = .error (.sidewaysEdge u v) := by
  obtain ⟨hinv0, hcov0⟩ := placeVertices_spec ranks
  unfold ranksToLevels
  rw [processEdges_eq_fold]
  rw [processFold_first_sideways ranks edges idx u v r (placeVertices ranks) [] hinv0
    (fun w rw hw => hcov0 w rw (alookup_mem hw)) hranked hidx huv hu hv hfirst]
  rfl

theorem claim4_sideways_fatal_witness :
    ranksToLevels [(0, 1), (1, 1)] [(0, 1)] = .error (.sidewaysEdge 0 1) :=
  claim4_sideways_fatal [(0, 1), (1, 1)] [(0, 1)] 0 0 1 1 (by decide) (by rfl) (by decide)
    (by rfl) (by rfl) (fun j a b hj hjb => by omega)

/-- The back-edge branch computes the forward chain for the swapped edge
and reverses it, leaving the state exactly as the forward call does. -/
theorem handleEdge_back_reversed {V : Type} [DecidableEq V] (ranks : List (V × Int))
    (u v : V) (st : BuildState V) {ru rv : Int}
    (huv : ¬ u = v) (hu : alookup ranks u = some ru) (hv : alookup ranks v = some rv)
    (hgt : rv < ru) :
    handleEdge ranks u v st =
      Except.map (fun p => (p.1.reverse, p.2)) (handleEdge ranks v u st) := by
  have hvu : ¬ v = u := fun hh => huv hh.symm
  have hswap : ∀ ru' rv', alookup ranks v = some ru' → alookup ranks u = some rv' →
      ¬ rv' < ru' := by
    intro ru' rv' h1 h2
    rw [hv] at h1
    rw [hu] at h2
    cases h1
    cases h2
    omega
  have hsome := handleEdgeAux_one_isSome ranks v u st hswap
  obtain ⟨e, he⟩ := Option.isSome_iff_exists.mp hsome
  have e2 : (2:Nat) = 1 + 1 := rfl
  have hback : handleEdgeAux ranks 2 u v st = some (Except.map (fun p => (p.1.reverse, p.2)) e) := by
    rw [e2, handleEdgeAux_back ranks u v st 1 huv hu hv hgt, he]
    rfl
  have hfwd : handleEdgeAux ranks 2 v u st = some e := by
    rw [e2, handleEdgeAux_one_eq ranks v u st 1 hswap]
    exact he
  rw [handleEdge_eq_of_aux hback, handleEdge_eq_of_aux hfwd]

/-- C5: a back edge (`rank v < rank u`) records exactly the reverse of the
chain computed for the forward edge `v→u` (same resulting state); hence the
recorded chain starts at the real node of `u`, ends at the real node of
`v`, and its interior virtual nodes sit in the rows strictly between the
two ranks. -/
theorem claim5_back_edge_reversed {V : Type} [DecidableEq V] (ranks : List (V × Int))
    (u v : V) (st : BuildState V) (ru rv : Int)
    (hinv : InvVTL st) (huv : ¬ u = v)
    (hu : alookup ranks u = some ru) (hv : alookup ranks v = some rv)
    (hgt : rv < ru) :
    handleEdge ranks u v st =
      Except.map (fun p => (p.1.reverse, p.2)) (handleEdge ranks v u st) ∧
    ∀ c0 st1, handleEdge ranks u v st = .ok (c0, st1) →
      ∃ ch0, handleEdge ranks v u st = .ok (ch0, st1) ∧ c0 = ch0.reverse ∧
        ChainGood st1 v u rv ru ch0 ∧
        (∃ (i : Nat) (nd : LNode V), c0.head? = some i ∧ st1.nodes[i]? = some nd ∧
          nd.vertex = some u) ∧
        (∃ (j : Nat) (nd : LNode V), c0.getLast? = some j ∧ st1.nodes[j]? = some nd ∧
          nd.vertex = some v) ∧
        (∀ (k nid : Nat), c0[k]? = some nid → 0 < k → k + 1 < c0.length →
          ∃ nd : LNode V, st1.nodes[nid]? = some nd ∧ nd.vertex = none ∧
            ∃ m : Int, rv < m ∧ m < ru ∧ nid ∈ st1.rankToLevel m) := by
  have hmap := handleEdge_back_reversed ranks u v st huv hu hv hgt
  refine ⟨hmap, ?_⟩
  intro c0 st1 hok
  rw [hmap] at hok
  cases hfwd : handleEdge ranks v u st with
  | error err => rw [hfwd] at hok; simp [Except.map] at hok
  | ok q =>
    obtain ⟨ch0, st1'⟩ := q
    rw [hfwd] at hok
    have hq : c0 = ch0.reverse ∧ st1' = st1 := by
      have := hok
      simp [Except.map] at this
      exact ⟨this.1.symm, this.2⟩
    obtain ⟨hc0, hst1⟩ := hq
    rw [hst1] at hfwd
    obtain ⟨hle, hinvF, hcase⟩ := handleEdge_ok_destruct hinv hfwd
    have hgood : ChainGood st1 v u rv ru ch0 := by
      rcases hcase with ⟨hvu, _, _, _, _, _, _⟩ | ⟨ra, rb, ha, hb, hlt, hg⟩ |
        ⟨ra, rb, chx, ha, hb, hba, _, _⟩
      · exact absurd hvu.symm huv
      · have e1 : ra = rv := Option.some.inj (ha.symm.trans hv)
        have e2 : rb = ru := Option.some.inj (hb.symm.trans hu)
        rw [e1, e2] at hg
        exact hg
      · have e1 : ra = rv := Option.some.inj (ha.symm.trans hv)
        have e2 : rb = ru := Option.some.inj (hb.symm.trans hu)
        rw [e1, e2] at hba
        omega
    obtain ⟨hglen, ⟨i, ndi, hh, hni, hvi⟩, ⟨j, ndj, hl, hnj, hvj⟩, hint, hlink⟩ := hgood
    refine ⟨ch0, by rw [hst1], hc0,
      ⟨hglen, ⟨i, ndi, hh, hni, hvi⟩, ⟨j, ndj, hl, hnj, hvj⟩, hint, hlink⟩, ?_, ?_, ?_⟩
    · refine ⟨j, ndj, ?_, hnj, hvj⟩
      rw [hc0, List.head?_reverse]
      exact hl
    · refine ⟨i, ndi, ?_, hni, hvi⟩
      rw [hc0, List.getLast?_reverse]
      exact hh
    · intro k nid hk h0 hk1
      have hklt : k < c0.length := by omega
      have hlen0 : c0.length = ch0.length := by rw [hc0, List.length_reverse]
      have hkrev : ch0[ch0.length - 1 - k]? = some nid := by
        rw [hc0] at hk
        rw [List.getElem?_reverse (by omega)] at hk
        exact hk
      have h0' : 0 < ch0.length - 1 - k := by omega
      have hk1' : (ch0.length - 1 - k) + 1 < ch0.length := by omega
      obtain ⟨nd0, hn0, hv0, hmem⟩ := hint (ch0.length - 1 - k) nid hkrev h0' hk1'
      refine ⟨nd0, hn0, hv0, rv + ((ch0.length - 1 - k : Nat) : Int), ?_, ?_, hmem⟩
      · omega
      · rw [hglen] at hk1' ⊢
        omega

def c5ranks : List (Nat × Int) := [(0, 2), (1, 0)]

theorem claim5_back_edge_reversed_witness :
    handleEdge c5ranks 0 1 (placeVertices c5ranks) =
      Except.map (fun p => (p.1.reverse, p.2))
        (handleEdge c5ranks 1 0 (placeVertices c5ranks)) ∧
    ∀ c0 st1, handleEdge c5ranks 0 1 (placeVertices c5ranks) = .ok (c0, st1) →
      ∃ ch0, handleEdge c5ranks 1 0 (placeVertices c5ranks) = .ok (ch0, st1) ∧
        c0 = ch0.reverse ∧
        ChainGood st1 1 0 0 2 ch0 ∧
        (∃ (i : Nat) (nd : LNode Nat), c0.head? = some i ∧ st1.nodes[i]? = some nd ∧
          nd.vertex = some 0) ∧
        (∃ (j : Nat) (nd : LNode Nat), c0.getLast? = some j ∧ st1.nodes[j]? = some nd ∧
          nd.vertex = some 1) ∧
        (∀ (k nid : Nat), c0[k]? = some nid → 0 < k → k + 1 < c0.length →
          ∃ nd : LNode Nat, st1.nodes[nid]? = some nd ∧ nd.vertex = none ∧
            ∃ m : Int, (0:Int) < m ∧ m < 2 ∧ nid ∈ st1.rankToLevel m) :=
  claim5_back_edge_reversed c5ranks 0 1 (placeVertices c5ranks) 2 0
    (placeVertices_spec c5ranks).1 (by decide) (by rfl) (by rfl) (by decide)

/-! ### Sort semantics of the crossing passes -/

theorem refillRow_none_slot (w : Nat → Option ℚ) :
    ∀ (row sorted : List Nat) (k i : Nat), row[k]? = some i → w i = none →
      (refillRow w row sorted)[k]? = some i := by
  intro row
  induction row with
  | nil => intro sorted k i hk _; simp at hk
  | cons j rest ih =>
    intro sorted k i hk hnone
    cases k with
    | zero =>
      have hj : j = i := by simpa using hk
      subst hj
      have hwj : (w j).isSome = false := by rw [hnone]; rfl
      simp [refillRow, hwj]
    | succ kk =>
      rw [List.getElem?_cons_succ] at hk
      cases hwj : (w j).isSome with
      | true =>
        cases sorted with
        | nil =>
          rw [show refillRow w (j :: rest) [] = j :: refillRow w rest [] by
            simp [refillRow, hwj]]
          rw [List.getElem?_cons_succ]
          exact ih [] kk i hk hnone
        | cons s srest =>
          rw [show refillRow w (j :: rest) (s :: srest) = s :: refillRow w rest srest by
            simp [refillRow, hwj]]
          rw [List.getElem?_cons_succ]
          exact ih srest kk i hk hnone
      | false =>
        rw [show refillRow w (j :: rest) sorted = j :: refillRow w rest sorted by
          simp [refillRow, hwj]]
        rw [List.getElem?_cons_succ]
        exact ih sorted kk i hk hnone

theorem refillRow_filter (w : Nat → Option ℚ) :
    ∀ (row sorted : List Nat),
      sorted.length = (row.filter (fun i => (w i).isSome)).length →
      (∀ s ∈ sorted, (w s).isSome) →
      (refillRow w row sorted).filter (fun i => (w i).isSome) = sorted := by
  intro row
  induction row with
  | nil =>
    intro sorted hlen _
    have hs : sorted = [] := List.eq_nil_of_length_eq_zero (by simpa using hlen)
    subst hs
    rfl
  | cons j rest ih =>
    intro sorted hlen hmem
    cases hwj : (w j).isSome with
    | true =>
      cases sorted with
      | nil =>
        exfalso
        rw [List.filter_cons_of_pos (by simp [hwj])] at hlen
        simp at hlen
      | cons s srest =>
        rw [show refillRow w (j :: rest) (s :: srest) = s :: refillRow w rest srest by
          simp [refillRow, hwj]]
        rw [List.filter_cons_of_pos (by simp [hmem s (by simp)])]
        rw [List.filter_cons_of_pos (by simp [hwj])] at hlen
        simp at hlen
        rw [ih srest (by simpa using hlen) (fun s2 hs2 => hmem s2 (by simp [hs2]))]
    | false =>
      rw [show refillRow w (j :: rest) sorted = j :: refillRow w rest sorted by
        simp [refillRow, hwj]]
      rw [List.filter_cons_of_neg (by simp [hwj])]
      rw [List.filter_cons_of_neg (by simp [hwj])] at hlen
      exact ih sorted hlen hmem

theorem sortRowByWeight_filter (w : Nat → Option ℚ) (row : List Nat) :
    (sortRowByWeight w row).filter (fun i => (w i).isSome) =
      List.insertionSort (fun a b => (w a).getD 0 ≤ (w b).getD 0)
        (row.filter (fun i => (w i).isSome)) := by
  apply refillRow_filter
  · exact (List.perm_insertionSort _ _).length_eq
  · intro s hs
    have hmem := (List.perm_insertionSort (fun a b => (w a).getD 0 ≤ (w b).getD 0)
      (row.filter (fun i => (w i).isSome))).mem_iff.mp hs
    exact (List.mem_filter.mp hmem).2

theorem modifyIndexFold_other {V : Type} :
    ∀ (ps : List (Nat × Nat)) (nodes : List (LNode V)) (j : Nat),
      (∀ p ∈ ps, p.2 ≠ j) →
      (ps.foldl (fun ns p => listModify ns p.2 (fun nd => { nd with index := p.1 }))
        nodes)[j]? = nodes[j]? := by
  intro ps
  induction ps with
  | nil => intro nodes j _; rfl
  | cons p rest ih =>
    intro nodes j hne
    rw [List.foldl_cons, ih _ j (fun q hq => hne q (by simp [hq]))]
    rw [getElem?_listModify, if_neg (fun hh => hne p (by simp) hh.symm)]

theorem modifyIndexFold_assigns {V : Type} :
    ∀ (ps : List (Nat × Nat)) (nodes : List (LNode V)) (k i : Nat),
      (ps.map Prod.snd).Nodup → (k, i) ∈ ps → i < nodes.length →
      ∃ nd, (ps.foldl (fun ns p => listModify ns p.2 (fun nd => { nd with index := p.1 }))
        nodes)[i]? = some nd ∧ nd.index = k := by
  intro ps
  induction ps with
  | nil => intro nodes k i _ hmem _; simp at hmem
  | cons p rest ih =>
    intro nodes k i hnd hmem hi
    have hnd2 : (p.2 :: rest.map Prod.snd).Nodup := by
      rw [← List.map_cons]
      exact hnd
    obtain ⟨hnotin, hnd'⟩ := List.nodup_cons.mp hnd2
    rw [List.foldl_cons]
    rcases List.mem_cons.mp hmem with heq | hmem'
    · have hp2 : p.2 = i := by rw [← heq]
      have hp1 : p.1 = k := by rw [← heq]
      have hother : ∀ q ∈ rest, q.2 ≠ i := by
        intro q hq hqi
        exact hnotin (by rw [← hp2] at hqi; exact hqi ▸ List.mem_map_of_mem Prod.snd hq)
      rw [modifyIndexFold_other rest _ i hother]
      rw [getElem?_listModify, hp2, if_pos rfl]
      obtain ⟨nd0, hnd0⟩ : ∃ nd0, nodes[i]? = some nd0 :=
        ⟨_, List.getElem?_eq_getElem hi⟩
      rw [hnd0]
      exact ⟨_, rfl, hp1⟩
    · refine ih _ k i hnd' hmem' ?_
      rw [length_listModify]
      exact hi

theorem reindexLevel_assigns {V : Type} (nodes : List (LNode V)) (row : List Nat)
    (hnd : row.Nodup) (k i : Nat) (hk : row[k]? = some i) (hi : i < nodes.length) :
    ∃ nd, (reindexLevel nodes row)[i]? = some nd ∧ nd.index = k := by
  apply modifyIndexFold_assigns row.enum nodes k i
  · rw [List.enum_map_snd]
    exact hnd
  · exact List.mk_mem_enum_iff_getElem?.mpr hk
  · exact hi

/-- C6: crossing minimization runs exactly 4 full passes; each pass is a
top-to-bottom sweep sorting every row by parent weight followed by a
bottom-to-top sweep sorting by child weight.  The row sort (modelled from
the spec: the missing `utils.sortBy` is a stable sort) permutes the row,
puts the weighted entries into stably sorted order, and leaves every node
whose weight is undefined — zero parents for the parent sweep, zero
children for the child sweep — at its original position; after sorting,
`reindexLevel` reassigns each node's index to its position `0..n-1` in the
row. -/
theorem claim6_crossing_sort_semantics {V : Type} (st : CrossState V)
    (w : Nat → Option ℚ) (row : List Nat) (nodes : List (LNode V)) :
    crossingPasses st = fullPass (fullPass (fullPass (fullPass st))) ∧
    fullPass st = upSweep (downSweep st) ∧
    (∀ (i : Nat) (nd : LNode V), nodes[i]? = some nd →
      (levelNodeParentWeight nodes i = none ↔ nd.parents = [])) ∧
    (∀ (i : Nat) (nd : LNode V), nodes[i]? = some nd →
      (levelNodeChildWeight nodes i = none ↔ nd.children = [])) ∧
    (sortRowByWeight w row).Perm row ∧
    ((sortRowByWeight w row).filter (fun i => (w i).isSome) =
      List.insertionSort (fun a b => (w a).getD 0 ≤ (w b).getD 0)
        (row.filter (fun i => (w i).isSome))) ∧
    List.Sorted (fun a b => (w a).getD 0 ≤ (w b).getD 0)
      ((sortRowByWeight w row).filter (fun i => (w i).isSome)) ∧
    (∀ a b : Nat, (w a).getD 0 ≤ (w b).getD 0 →
      [a, b].Sublist (row.filter (fun i => (w i).isSome)) →
      [a, b].Sublist ((sortRowByWeight w row).filter (fun i => (w i).isSome))) ∧
    (∀ (k i : Nat), row[k]? = some i → w i = none → (sortRowByWeight w row)[k]? = some i) ∧
    (row.Nodup → ∀ (k i : Nat), row[k]? = some i → i < nodes.length →
      ∃ nd, (reindexLevel nodes row)[i]? = some nd ∧ nd.index = k) := by
  haveI htot : IsTotal Nat (fun a b => (w a).getD 0 ≤ (w b).getD 0) :=
    ⟨fun a b => le_total _ _⟩
  haveI htrans : IsTrans Nat (fun a b => (w a).getD 0 ≤ (w b).getD 0) :=
    ⟨fun a b c hab hbc => le_trans hab hbc⟩
  refine ⟨?_, rfl, ?_, ?_, sortRowByWeight_perm w row, sortRowByWeight_filter w row, ?_, ?_,
    refillRow_none_slot w row _, fun hnd k i hk hi => reindexLevel_assigns nodes row hnd k i hk hi⟩
  · unfold crossingPasses
    rw [show List.range 4 = [0, 1, 2, 3] by decide]
    rw [List.foldl_cons, List.foldl_cons, List.foldl_cons, List.foldl_cons, List.foldl_nil]
  · intro i nd hnd
    rw [show levelNodeParentWeight nodes i = (match nodes[i]? with
      | none => none
      | some nd => if nd.parents.isEmpty then none
        else some ((nd.parents.foldl (fun a p => a + idxOf nodes p) 0) /
          (nd.parents.length : ℚ))) from rfl, hnd]
    by_cases hp : nd.parents.isEmpty
    · simp [hp, List.isEmpty_iff.mp hp]
    · have hne : ¬ nd.parents = [] := fun hh => hp (by rw [hh]; rfl)
      simp [hp, hne]
  · intro i nd hnd
    rw [show levelNodeChildWeight nodes i = (match nodes[i]? with
      | none => none
      | some nd => if nd.children.isEmpty then none
        else some ((nd.children.foldl (fun a p => a + idxOf nodes p) 0) /
          (nd.children.length : ℚ))) from rfl, hnd]
    by_cases hp : nd.children.isEmpty
    · simp [hp, List.isEmpty_iff.mp hp]
    · have hne : ¬ nd.children = [] := fun hh => hp (by rw [hh]; rfl)
      simp [hp, hne]
  · rw [sortRowByWeight_filter]
    exact List.sorted_insertionSort _ _
  · intro a b hab hsub
    rw [sortRowByWeight_filter]
    exact List.pair_sublist_insertionSort hab hsub

/-! ### Claim 8: where `positionNodes` actually centers each row -/

def c8nodes : List (LNode Nat) :=
  [⟨[], [], some 0, 0⟩, ⟨[], [], none, 0⟩, ⟨[], [], none, 0⟩]

def c8levels : List (List Nat) := [[0], [1, 2]]

/-- C8 counterexample: with one real node in row 0 and two virtual nodes in
row 1, the occupied width of the widest row is 115 (row 0 itself), so the
claim predicts row 0 starts at `(115 - 115)/2 = 0`; but the code centers
under the hypothetical width `maxCount*115 + (maxCount-1)*25 = 255` of a
row of `maxCount` real nodes and places the node at `x = 70`. -/
theorem claim8_counterexample :
    levelWidthOf c8nodes [0] = 115 ∧
    levelWidthOf c8nodes [1, 2] = 75 ∧
    (∀ row ∈ c8levels, levelWidthOf c8nodes row ≤ 115) ∧
    totalWidthOf c8levels = 255 ∧
    alookup (positionNodes c8nodes c8levels) 0 = some ⟨⟨70, 0⟩, ⟨115, 25⟩⟩ ∧
    (70 : ℚ) ≠ (115 - 115) / 2 := by
  refine ⟨?_, ?_, ?_, ?_, ?_, by norm_num⟩
  · norm_num [levelWidthOf, c8nodes, isRealNode, horizontalSpacing, boxWidth]
  · norm_num [levelWidthOf, c8nodes, isRealNode, horizontalSpacing, boxWidth]
  · intro row hrow
    rcases List.mem_cons.mp hrow with h | h
    · subst h
      norm_num [levelWidthOf, c8nodes, isRealNode, horizontalSpacing, boxWidth]
    · rcases List.mem_cons.mp h with h2 | h2
      · subst h2
        norm_num [levelWidthOf, c8nodes, isRealNode, horizontalSpacing, boxWidth]
      · simp at h2
  · norm_num [totalWidthOf, maxCountOf, c8levels, boxWidth, horizontalSpacing]
  · norm_num [positionNodes, placeRow, mapSet, alookup, c8nodes, c8levels, isRealNode,
      levelWidthOf, totalWidthOf, maxCountOf, boxWidth, boxHeight, horizontalSpacing,
      verticalSpacing]


/-- The fold body of `placeRow`, named for the induction. -/
def posRowStep {V : Type} (nodes : List (LNode V)) (y : ℚ)
    (acc : List (Nat × Rect) × ℚ) (id2 : Nat) : List (Nat × Rect) × ℚ :=
  if isRealNode nodes id2 = false then
    (mapSet acc.1 id2 ⟨⟨acc.2 + horizontalSpacing / 2, y + boxHeight / 2⟩, ⟨0, 0⟩⟩,
      acc.2 + horizontalSpacing + horizontalSpacing)
  else
    (mapSet acc.1 id2 ⟨⟨acc.2, y⟩, ⟨boxWidth, boxHeight⟩⟩,
      acc.2 + boxWidth + horizontalSpacing)

theorem placeRow_eq {V : Type} (nodes : List (LNode V)) (row : List Nat) (x0 y : ℚ)
    (ps : List (Nat × Rect)) :
    placeRow nodes row x0 y ps = row.foldl (posRowStep nodes y) (ps, x0) := rfl

theorem placeRowFold_frozen {V : Type} (nodes : List (LNode V)) (y : ℚ) :
    ∀ (row : List Nat) (acc : List (Nat × Rect) × ℚ) (id : Nat), id ∉ row →
      alookup ((row.foldl (posRowStep nodes y) acc).1) id = alookup acc.1 id := by
  intro row
  induction row with
  | nil => intro acc id _; rfl
  | cons j rest ih =>
    intro acc id hnin
    have hij : ¬ id = j := fun hh => hnin (by rw [hh]; simp)
    rw [List.foldl_cons, ih _ id (fun hh => hnin (by simp [hh]))]
    unfold posRowStep
    cases hj : isRealNode nodes j with
    | false =>
      rw [if_pos rfl]
      show alookup (mapSet acc.1 j _) id = _
      rw [alookup_mapSet, if_neg hij]
    | true =>
      rw [if_neg (fun hh => Bool.noConfusion hh)]
      show alookup (mapSet acc.1 j _) id = _
      rw [alookup_mapSet, if_neg hij]

theorem placeRow_frozen {V : Type} (nodes : List (LNode V)) (row : List Nat) (x0 y : ℚ)
    (ps : List (Nat × Rect)) (id : Nat) (h : id ∉ row) :
    alookup (placeRow nodes row x0 y ps).1 id = alookup ps id := by
  rw [placeRow_eq]
  exact placeRowFold_frozen nodes y row (ps, x0) id h

theorem placeRow_head {V : Type} (nodes : List (LNode V)) (t : List Nat) (x0 y : ℚ)
    (ps : List (Nat × Rect)) (id : Nat) (hnotin : id ∉ t) :
    alookup (placeRow nodes (id :: t) x0 y ps).1 id =
      some (if isRealNode nodes id = false then
        Rect.mk ⟨x0 + horizontalSpacing / 2, y + boxHeight / 2⟩ ⟨0, 0⟩
      else Rect.mk ⟨x0, y⟩ ⟨boxWidth, boxHeight⟩) := by
  rw [placeRow_eq, List.foldl_cons, placeRowFold_frozen nodes y t _ id hnotin]
  unfold posRowStep
  cases hr : isRealNode nodes id with
  | false =>
    rw [if_pos rfl, if_pos rfl]
    show alookup (mapSet ps id _) id = _
    rw [alookup_mapSet, if_pos rfl]
  | true =>
    rw [if_neg (fun hh => Bool.noConfusion hh), if_neg (fun hh => Bool.noConfusion hh)]
    show alookup (mapSet ps id _) id = _
    rw [alookup_mapSet, if_pos rfl]

/-- The fold body of `positionNodes`, named for the induction. -/
def posLevelStep {V : Type} (nodes : List (LNode V)) (levels : List (List Nat))
    (acc : List (Nat × Rect) × ℚ) (level : List Nat) : List (Nat × Rect) × ℚ :=
  ((placeRow nodes level (totalWidthOf levels / 2 - levelWidthOf nodes level / 2)
      acc.2 acc.1).1, acc.2 + boxHeight + verticalSpacing)

theorem positionNodes_eq {V : Type} (nodes : List (LNode V)) (levels : List (List Nat)) :
    positionNodes nodes levels = (levels.foldl (posLevelStep nodes levels) ([], 0)).1 := rfl

theorem posFold_frozen {V : Type} (nodes : List (LNode V)) (levels : List (List Nat)) :
    ∀ (rows : List (List Nat)) (acc : List (Nat × Rect) × ℚ) (id : Nat),
      (∀ row' ∈ rows, id ∉ row') →
      alookup ((rows.foldl (posLevelStep nodes levels) acc).1) id = alookup acc.1 id := by
  intro rows
  induction rows with
  | nil => intro acc id _; rfl
  | cons row0 rest ih =>
    intro acc id hnin
    rw [List.foldl_cons, ih _ id (fun r hr => hnin r (by simp [hr]))]
    show alookup (placeRow nodes row0 _ _ acc.1).1 id = _
    rw [placeRow_frozen nodes row0 _ _ acc.1 id (hnin row0 (by simp))]

theorem posFold_head {V : Type} (nodes : List (LNode V)) (levels : List (List Nat)) :
    ∀ (rows : List (List Nat)) (ps : List (Nat × Rect)) (y : ℚ) (k : Nat) (row : List Nat)
      (id : Nat),
      rows[k]? = some row → row.head? = some id →
      (∀ (j : Nat) (row' : List Nat), rows[j]? = some row' → j ≠ k → id ∉ row') →
      (∀ t, row = id :: t → id ∉ t) →
      ∃ rect, alookup ((rows.foldl (posLevelStep nodes levels) (ps, y)).1) id = some rect ∧
        rect.left = totalWidthOf levels / 2 - levelWidthOf nodes row / 2 +
          (if isRealNode nodes id = false then horizontalSpacing / 2 else 0) ∧
        rect.top = y + (k : ℚ) * (boxHeight + verticalSpacing) +
          (if isRealNode nodes id = false then boxHeight / 2 else 0) ∧
        rect.width = (if isRealNode nodes id = false then 0 else boxWidth) ∧
        rect.height = (if isRealNode nodes id = false then 0 else boxHeight) := by
  intro rows
  induction rows with
  | nil => intro ps y k row id hk _ _ _; simp at hk
  | cons row0 rest ih =>
    intro ps y k row id hk hhead hcross hsame
    rw [List.foldl_cons]
    cases k with
    | zero =>
      have hrow0 : row0 = row := by simpa using hk
      subst hrow0
      obtain ⟨t, ht⟩ := List.head?_eq_some_iff.mp hhead
      have hrest : ∀ row' ∈ rest, id ∉ row' := by
        intro row' hmem
        obtain ⟨j, hj, hjeq⟩ := List.getElem_of_mem hmem
        exact hcross (j + 1) row' (by rw [List.getElem?_cons_succ, List.getElem?_eq_getElem hj,
          hjeq]) (Nat.succ_ne_zero j)
      rw [posFold_frozen nodes levels rest _ id hrest]
      rw [show (posLevelStep nodes levels (ps, y) row0).1
        = (placeRow nodes row0 (totalWidthOf levels / 2 - levelWidthOf nodes row0 / 2)
            y ps).1 from rfl]
      rw [show row0 = id :: t from ht,
        placeRow_head nodes t _ y ps id (hsame t ht)]
      refine ⟨_, rfl, ?_, ?_, ?_, ?_⟩
      · cases hr : isRealNode nodes id with
        | false => simp [Rect.left]
        | true => simp [Rect.left]
      · cases hr : isRealNode nodes id with
        | false => simp [Rect.top]
        | true => simp [Rect.top]
      · cases hr : isRealNode nodes id with
        | false => simp [Rect.width]
        | true => simp [Rect.width]
      · cases hr : isRealNode nodes id with
        | false => simp [Rect.height]
        | true => simp [Rect.height]
    | succ j =>
      rw [show posLevelStep nodes levels (ps, y) row0 =
        ((placeRow nodes row0 (totalWidthOf levels / 2 - levelWidthOf nodes row0 / 2)
            y ps).1, y + boxHeight + verticalSpacing) from rfl]
      obtain ⟨rect, h1, h2, h3, h4, h5⟩ := ih _ (y + boxHeight + verticalSpacing) j row id
        (by simpa using hk) hhead
        (fun j2 row' hj2 hne => hcross (j2 + 1) row' (by simpa using hj2) (by omega))
        hsame
      exact ⟨rect, h1, h2, by rw [h3]; push_cast; ring, h4, h5⟩

/-- C8 (amended): each row is independently offset, but the reference width
is not the occupied width of the widest row: the code centers every row
under the hypothetical width `totalWidth = maxCount*boxWidth +
(maxCount-1)*horizontalSpacing` of a row of `maxCount` real nodes.  The
first node of row `r` starts at `totalWidth/2 - levelWidth(row)/2` (its
anchor shifted by half a spacing and half a box height when it is
virtual), at `y = r*(boxHeight+verticalSpacing)`; `levelWidth` counts a
narrower placeholder width for virtual nodes. -/
theorem claim8_row_offset {V : Type} (nodes : List (LNode V)) (levels : List (List Nat))
    (r : Nat) (row : List Nat) (id : Nat)
    (hrow : levels[r]? = some row) (hhead : row.head? = some id)
    (hnodup : levels.flatten.Nodup) :
    ∃ rect, alookup (positionNodes nodes levels) id = some rect ∧
      rect.left = totalWidthOf levels / 2 - levelWidthOf nodes row / 2 +
        (if isRealNode nodes id = false then horizontalSpacing / 2 else 0) ∧
      rect.top = (r : ℚ) * (boxHeight + verticalSpacing) +
        (if isRealNode nodes id = false then boxHeight / 2 else 0) ∧
      rect.width = (if isRealNode nodes id = false then 0 else boxWidth) ∧
      rect.height = (if isRealNode nodes id = false then 0 else boxHeight) := by
  obtain ⟨hrowsnd, hdisj⟩ := List.nodup_flatten.mp hnodup
  have hid_row : id ∈ row := by
    obtain ⟨t, ht⟩ := List.head?_eq_some_iff.mp hhead
    rw [ht]
    simp
  have hcross : ∀ (j : Nat) (row' : List Nat), levels[j]? = some row' → j ≠ r →
      id ∉ row' := by
    intro j row' hj hne hmem
    have hjl := getElem?_some_lt hj
    have hrl := getElem?_some_lt hrow
    have hje : levels[j] = row' := by
      rw [List.getElem?_eq_getElem hjl] at hj
      exact Option.some.inj hj
    have hre : levels[r] = row := by
      rw [List.getElem?_eq_getElem hrl] at hrow
      exact Option.some.inj hrow
    rcases Nat.lt_or_ge j r with hlt | hge
    · have hd := (List.pairwise_iff_getElem.mp hdisj) j r hjl hrl hlt
      rw [hje, hre] at hd
      exact hd hmem hid_row
    · have hlt2 : r < j := by omega
      have hd := (List.pairwise_iff_getElem.mp hdisj) r j hrl hjl hlt2
      rw [hje, hre] at hd
      exact hd hid_row hmem
  have hsame : ∀ t, row = id :: t → id ∉ t := by
    intro t ht hmem
    have hrmem : row ∈ levels := List.getElem?_mem hrow
    have hnd := hrowsnd row hrmem
    rw [ht] at hnd
    exact (List.nodup_cons.mp hnd).1 hmem
  rw [positionNodes_eq]
  obtain ⟨rect, h1, h2, h3, h4, h5⟩ :=
    posFold_head nodes levels levels [] 0 r row id hrow hhead hcross hsame
  exact ⟨rect, h1, h2, by rw [h3]; ring, h4, h5⟩

theorem claim8_row_offset_witness :
    ∃ rect, alookup (positionNodes c8nodes c8levels) 0 = some rect ∧
      rect.left = totalWidthOf c8levels / 2 - levelWidthOf c8nodes [0] / 2 +
        (if isRealNode c8nodes 0 = false then horizontalSpacing / 2 else 0) ∧
      rect.top = ((0 : Nat) : ℚ) * (boxHeight + verticalSpacing) +
        (if isRealNode c8nodes 0 = false then boxHeight / 2 else 0) ∧
      rect.width = (if isRealNode c8nodes 0 = false then 0 else boxWidth) ∧
      rect.height = (if isRealNode c8nodes 0 = false then 0 else boxHeight) :=
  claim8_row_offset c8nodes c8levels 0 [0] 0 (by rfl) (by rfl) (by decide)

/-! ### Claim 9: the anchors of an edge path -/

def c9positions : List (Nat × Rect) := [(0, ⟨⟨0, 70⟩, ⟨115, 25⟩⟩), (1, ⟨⟨0, 0⟩, ⟨115, 25⟩⟩)]

/-- C9 counterexample: for a chain whose second node lies above the first
(a reversed back-edge chain), the initial move-to anchor is still the
bottom-center of the first rectangle — `(115/2, 95)` — although the
vertically-nearer face of that rectangle is its top (`(115/2, 70)`): the
source adds the rectangle height to the first anchor unconditionally. -/
theorem claim9_counterexample :
    makeEdgePath (V := Nat) c9positions [0, 1] =
      .ok [.move ⟨115/2, 95⟩, .scurve ⟨115/2, 95/2⟩ ⟨115/2, 25⟩] ∧
    (⟨115/2, 95⟩ : Vec2) = bottomCenter ⟨⟨0, 70⟩, ⟨115, 25⟩⟩ ∧
    (⟨115/2, 95⟩ : Vec2) ≠ topCenter ⟨⟨0, 70⟩, ⟨115, 25⟩⟩ ∧
    ((⟨⟨0, 0⟩, ⟨115, 25⟩⟩ : Rect).top < (⟨⟨0, 70⟩, ⟨115, 25⟩⟩ : Rect).top) := by
  refine ⟨?_, ?_, ?_, ?_⟩
  · norm_num [makeEdgePath, makeEdgePathGo, alookup, c9positions, topCenter, bottomCenter,
      Vec2.plus, Vec2.times, Rect.left, Rect.top, Rect.width, Rect.height]
  · norm_num [bottomCenter, topCenter, Vec2.plus, Rect.left, Rect.top, Rect.width,
      Rect.height]
  · norm_num [topCenter, Rect.left, Rect.top, Rect.width, Vec2.mk.injEq]
  · norm_num [Rect.top]

theorem makeEdgePathGo_spec {V : Type} (positions : List (Nat × Rect)) :
    ∀ (rest : List Nat) (prev : Nat) (acc : List PathCmd),
      (∀ n ∈ prev :: rest, (alookup positions n).isSome) →
      ∃ cmds : List PathCmd, makeEdgePathGo (V := V) positions prev rest acc = .ok cmds ∧
        cmds.length = acc.length + rest.length ∧
        (∀ k : Nat, k < acc.length → cmds[k]? = acc[k]?) ∧
        (∀ (k : Nat) (a b : Nat) (ra rb : Rect),
          (prev :: rest)[k]? = some a → (prev :: rest)[k+1]? = some b →
          alookup positions a = some ra → alookup positions b = some rb →
          cmds[acc.length + k]? = some (.scurve
            (((if ra.top < rb.top then bottomCenter ra else topCenter ra).plus
              (if ra.top < rb.top then topCenter rb else bottomCenter rb)).times (1/2))
            (if ra.top < rb.top then topCenter rb else bottomCenter rb))) := by
  intro rest
  induction rest with
  | nil =>
    intro prev acc _
    refine ⟨acc, rfl, by simp, fun k _ => rfl, ?_⟩
    intro k a b _ _ _ hb _ _
    have := getElem?_some_lt hb
    simp at this
  | cons nxt rest' ih =>
    intro prev acc hall
    obtain ⟨fromRect, hfrom⟩ := Option.isSome_iff_exists.mp (hall prev (by simp))
    obtain ⟨toRect, hto⟩ := Option.isSome_iff_exists.mp (hall nxt (by simp))
    have hstep : makeEdgePathGo (V := V) positions prev (nxt :: rest') acc =
        makeEdgePathGo (V := V) positions nxt rest' (acc ++ [.scurve
          (((if fromRect.top < toRect.top then bottomCenter fromRect
              else topCenter fromRect).plus
            (if fromRect.top < toRect.top then topCenter toRect
              else bottomCenter toRect)).times (1/2))
          (if fromRect.top < toRect.top then topCenter toRect
            else bottomCenter toRect)]) := by
      simp only [makeEdgePathGo, hfrom, hto, bottomCenter, topCenter]
    rw [hstep]
    obtain ⟨cmds, hrun, hlen, hpre, hseg⟩ := ih nxt _
      (fun n hn => hall n (by
        rcases List.mem_cons.mp hn with h | h
        · simp [h]
        · simp [h]))
    refine ⟨cmds, hrun, by simp at hlen ⊢; omega, ?_, ?_⟩
    · intro k hk
      rw [hpre k (by simp; omega)]
      rw [List.getElem?_append_left hk]
    · intro k a b ra rb hka hkb hra hrb
      cases k with
      | zero =>
        have ha : prev = a := by simpa using hka
        have hb : nxt = b := by simpa using hkb
        subst ha
        subst hb
        have hra2 : ra = fromRect := by
          rw [hfrom] at hra
          exact (Option.some.inj hra).symm
        have hrb2 : rb = toRect := by
          rw [hto] at hrb
          exact (Option.some.inj hrb).symm
        subst hra2
        subst hrb2
        rw [Nat.add_zero, hpre acc.length (by simp)]
        rw [List.getElem?_concat_length]
      | succ kk =>
        have hka' : (nxt :: rest')[kk]? = some a := by simpa using hka
        have hkb' : (nxt :: rest')[kk+1]? = some b := by simpa using hkb
        have := hseg kk a b ra rb hka' hkb' hra hrb
        rw [show acc.length + (kk + 1) = (acc ++ [PathCmd.scurve
          (((if fromRect.top < toRect.top then bottomCenter fromRect
              else topCenter fromRect).plus
            (if fromRect.top < toRect.top then topCenter toRect
              else bottomCenter toRect)).times (1/2))
          (if fromRect.top < toRect.top then topCenter toRect
            else bottomCenter toRect)]).length + kk by simp; omega]
        exact this

/-- C9 (amended): in a produced edge path every SEGMENT anchor follows the
vertically-nearer-face rule — exit from the bottom of the from-rectangle
and enter at the top of the to-rectangle when the to-node lies below, and
the opposite faces otherwise — and every anchor is horizontally centered;
but the INITIAL move-to anchor is unconditionally the bottom-center of the
first chain node's rectangle, even when the next chain node lies above
(see `claim9_counterexample`). -/
theorem claim9_path_anchors {V : Type} (positions : List (Nat × Rect)) (chain : List Nat)
    (n0 : Nat) (rest : List Nat) (r0 : Rect)
    (hchain : chain = n0 :: rest)
    (h0 : alookup positions n0 = some r0)
    (hall : ∀ n ∈ chain, (alookup positions n).isSome) :
    ∃ cmds : List PathCmd, makeEdgePath (V := V) positions chain = .ok cmds ∧
      cmds.length = chain.length ∧
      cmds[0]? = some (.move (bottomCenter r0)) ∧
      (∀ (k : Nat) (a b : Nat) (ra rb : Rect),
        chain[k]? = some a → chain[k+1]? = some b →
        alookup positions a = some ra → alookup positions b = some rb →
        cmds[k+1]? = some (.scurve
          (((if ra.top < rb.top then bottomCenter ra else topCenter ra).plus
            (if ra.top < rb.top then topCenter rb else bottomCenter rb)).times (1/2))
          (if ra.top < rb.top then topCenter rb else bottomCenter rb))) := by
  subst hchain
  have hstart : makeEdgePath (V := V) positions (n0 :: rest) =
      makeEdgePathGo (V := V) positions n0 rest [.move (bottomCenter r0)] := by
    simp only [makeEdgePath, h0, bottomCenter, topCenter, Vec2.plus]
  rw [hstart]
  obtain ⟨cmds, hrun, hlen, hpre, hseg⟩ :=
    makeEdgePathGo_spec positions rest n0 [.move (bottomCenter r0)] hall
  refine ⟨cmds, hrun, by simp at hlen ⊢; omega, ?_, ?_⟩
  · rw [hpre 0 (by simp)]
    rfl
  · intro k a b ra rb hka hkb hra hrb
    have := hseg k a b ra rb hka hkb hra hrb
    rw [show ([PathCmd.move (bottomCenter r0)]).length + k = k + 1 by simp; omega] at this
    exact this

theorem claim9_path_anchors_witness :
    ∃ cmds : List PathCmd, makeEdgePath (V := Nat) c9positions [0, 1] = .ok cmds ∧
      cmds.length = ([0, 1] : List Nat).length ∧
      cmds[0]? = some (.move (bottomCenter ⟨⟨0, 70⟩, ⟨115, 25⟩⟩)) ∧
      (∀ (k : Nat) (a b : Nat) (ra rb : Rect),
        ([0, 1] : List Nat)[k]? = some a → ([0, 1] : List Nat)[k+1]? = some b →
        alookup c9positions a = some ra → alookup c9positions b = some rb →
        cmds[k+1]? = some (.scurve
          (((if ra.top < rb.top then bottomCenter ra else topCenter ra).plus
            (if ra.top < rb.top then topCenter rb else bottomCenter rb)).times (1/2))
          (if ra.top < rb.top then topCenter rb else bottomCenter rb))) :=
  claim9_path_anchors c9positions [0, 1] 0 [1] ⟨⟨0, 70⟩, ⟨115, 25⟩⟩ (by rfl) (by rfl)
    (by decide)

/-- C10: the pipeline terminates on every finite input graph, cycles,
self-loops and parallel edges included.  The memoized DFS of `rankVertices`
is fuel-stable at `|V|+1` (the visited set bounds the recursion), the
back-edge recursion of `handleEdge` is fuel-stable at depth 2 and never
exhausts its depth bound, and the whole pipeline always produces either a
result or one of the defined fatal errors. -/
theorem claim10_pipeline_terminates {V : Type} [DecidableEq V] (g : Graph V)
    (hWF : GraphWF g) :
    (∀ k : Nat, rankVerticesAux g (g.vertices.length + 1 + k) = rankVertices g) ∧
    (∀ (ranks : List (V × Int)) (u v : V) (st : BuildState V) (k : Nat),
      handleEdgeAux ranks (k + 2) u v st = handleEdgeAux ranks 2 u v st ∧
      (handleEdgeAux ranks 2 u v st).isSome) ∧
    ((∃ res, layoutGraph g = .ok res) ∨ (∃ err, layoutGraph g = .error err)) := by
  refine ⟨fun k => rankVerticesAux_stable g hWF k,
    fun ranks u v st k => ⟨handleEdgeAux_two_stable ranks u v st k,
      handleEdgeAux_two_isSome ranks u v st⟩, ?_⟩
  cases h : layoutGraph g with
  | ok res => exact Or.inl ⟨res, rfl⟩
  | error err => exact Or.inr ⟨err, rfl⟩

theorem claim10_pipeline_terminates_witness :
    (∀ k : Nat, rankVerticesAux gWit (gWit.vertices.length + 1 + k) = rankVertices gWit) ∧
    (∀ (ranks : List (Nat × Int)) (u v : Nat) (st : BuildState Nat) (k : Nat),
      handleEdgeAux ranks (k + 2) u v st = handleEdgeAux ranks 2 u v st ∧
      (handleEdgeAux ranks 2 u v st).isSome) ∧
    ((∃ res, layoutGraph gWit = .ok res) ∨ (∃ err, layoutGraph gWit = .error err)) :=
  claim10_pipeline_terminates gWit gWit_wf
